import Mathlib

/-!
# Verification of the file-search engine of `git-simple-read-mcp`

This file is a shallow embedding, in Lean 4, of the keyword-search and
pattern-filtering subsystem of the `git-simple-read-mcp` repository, together
with theorems settling the specification's claims about it.

Strings of the Go source are modelled as `List Char` (`GoStr`), and the Go
standard-library string operations used by the source (`strings.Contains`,
`strings.Split`, `strings.SplitN`, `strings.TrimSpace`, `strconv.Atoi`,
`filepath.Base`, `filepath.Match`, ...) are given executable models below.
The external `git` binary is modelled where needed: `git grep -n <kw>` output
is generated by `gitGrepOutput` from an abstract repository (a list of tracked
files with their lines), and `git ls-files` is modelled by iterating that same
list.  Every embedded function keeps the name of the Go function it embeds.
-/

/-- Go strings, modelled as lists of characters. -/
abbrev GoStr := List Char

/-- Shorthand to write a concrete `GoStr` from a Lean string literal. -/
def gs (s : String) : GoStr := s.data

/-- Model of Go `strings.HasPrefix(s, pre)`. -/
def goPrefixed (s pre : GoStr) : Bool := pre.isPrefixOf s

/-- Model of Go `strings.HasSuffix(s, suf)`. -/
def goSuffixed (s suf : GoStr) : Bool := suf.isSuffixOf s

/-- Model of Go `strings.Contains(s, sub)`: `sub` occurs as a contiguous
substring of `s` (every string contains the empty string). -/
def goContains : GoStr → GoStr → Bool
  | s, sub =>
    if sub.isPrefixOf s then true
    else
      match s with
      | [] => false
      | _ :: rest => goContains rest sub

/-- Model of Go `strings.TrimSuffix(s, suf)`. -/
def goTrimEnd (s suf : GoStr) : GoStr :=
  if goSuffixed s suf then s.take (s.length - suf.length) else s

/-- Model of Go `strings.TrimPrefix(s, pre)`. -/
def goTrimStart (s pre : GoStr) : GoStr :=
  if goPrefixed s pre then s.drop pre.length else s

/-- Model of Go `strings.ToLower`, restricted to ASCII case mapping (the
repository only ever compares ASCII keywords and filenames). -/
def goToLower (s : GoStr) : GoStr := s.map Char.toLower

/-- Whitespace characters recognised by Go `unicode.IsSpace` (ASCII part). -/
def isSpaceChar (c : Char) : Bool :=
  c == ' ' || c == '\t' || c == '\n' || c == '\r' ||
    c == Char.ofNat 11 || c == Char.ofNat 12

/-- Model of Go `strings.TrimSpace`. -/
def goTrimSpace (s : GoStr) : GoStr :=
  ((s.dropWhile isSpaceChar).reverse.dropWhile isSpaceChar).reverse

/-- Index of the first occurrence of `sub` in `s` (Go `strings.Index`). -/
def indexOfSub : GoStr → GoStr → Option Nat
  | s, sub =>
    if sub.isPrefixOf s then some 0
    else
      match s with
      | [] => none
      | _ :: rest => (indexOfSub rest sub).map (· + 1)

/-- Fuel-driven worker for `goSplit`; the fuel bounds the number of cuts and
always suffices when it exceeds the length of the string being split. -/
def goSplitAux (sep : GoStr) : Nat → GoStr → List GoStr
  | 0, s => [s]
  | fuel + 1, s =>
    match indexOfSub s sep with
    | none => [s]
    | some i => s.take i :: goSplitAux sep fuel (s.drop (i + sep.length))

/-- Model of Go `strings.Split(s, sep)`: split at every non-overlapping
occurrence of `sep`, scanning left to right; with an empty separator the
string is split into its characters. -/
def goSplit (s sep : GoStr) : List GoStr :=
  if sep = [] then s.map (fun c => [c]) else goSplitAux sep s.length s

/-- Model of Go `strings.SplitN(s, sep, n)` for `n ≥ 0`: like `goSplit` but
produces at most `n` parts, the last part being the unsplit remainder. -/
def goSplitN : GoStr → GoStr → Nat → List GoStr
  | _, _, 0 => []
  | s, _, 1 => [s]
  | s, sep, n + 2 =>
    match indexOfSub s sep with
    | none => [s]
    | some i => s.take i :: goSplitN (s.drop (i + sep.length)) sep (n + 1)

/-- Numeric value of an ASCII digit. -/
def digitVal (c : Char) : Option Nat :=
  if '0' ≤ c ∧ c ≤ '9' then some (c.toNat - 48) else none

/-- Accumulating decimal parser used by `goAtoi`. -/
def parseDigitsAux : Nat → GoStr → Option Nat
  | acc, [] => some acc
  | acc, c :: rest =>
    match digitVal c with
    | some d => parseDigitsAux (10 * acc + d) rest
    | none => none

/-- Parse a non-empty all-digit string. -/
def parseDigits : GoStr → Option Nat
  | [] => none
  | s => parseDigitsAux 0 s

/-- Model of Go `strconv.Atoi`: an optional sign followed by at least one
decimal digit (overflow of 64-bit ints is not modelled; the line numbers fed
to it are small). -/
def goAtoi (s : GoStr) : Option Int :=
  match s with
  | [] => none
  | c :: rest =>
    if c = '+' then (parseDigits rest).map Int.ofNat
    else if c = '-' then (parseDigits rest).map (fun n => -(n : Int))
    else (parseDigits (c :: rest)).map Int.ofNat

/-- ASCII digit character for a value `< 10`. -/
def digitChar (d : Nat) : Char := Char.ofNat (48 + d)

/-- Fuel-driven decimal printer; fuel above the number of digits suffices. -/
def natToCharsAux : Nat → Nat → GoStr
  | 0, _ => []
  | fuel + 1, n =>
    if n < 10 then [digitChar n]
    else natToCharsAux fuel (n / 10) ++ [digitChar (n % 10)]

/-- Decimal representation of a natural number, as printed by `git grep -n`
line numbers. -/
def natToChars (n : Nat) : GoStr := natToCharsAux (n + 1) n

/-- Model of Go `filepath.Base`: strip trailing separators, then keep the part
after the last separator; empty input gives `"."`, all-separator input `"/"`. -/
def filepathBase (path : GoStr) : GoStr :=
  if path = [] then gs "."
  else
    let p1 := (path.reverse.dropWhile (· == '/')).reverse
    let p2 := (p1.reverse.takeWhile (· ≠ '/')).reverse
    if p2 = [] then gs "/" else p2

/-- Read one (possibly escaped) character of a `[...]` character class, as Go
`filepath.getEsc`: rejects an empty remainder, a leading `-` or `]`, and a
class that would end immediately after the character (a well-formed class
still needs its closing `]`). -/
def getEsc : GoStr → Option (Char × GoStr)
  | [] => none
  | '-' :: _ => none
  | ']' :: _ => none
  | '\\' :: rest =>
    match rest with
    | [] => none
    | c :: r2 => if r2 = [] then none else some (c, r2)
  | c :: rest => if rest = [] then none else some (c, rest)

/-- Fuel-driven scan of the ranges of a `[...]` class (after any `^`), as the
range loop of Go `filepath.Match`: returns whether `r` fell in some range and
the pattern remainder after the closing `]`, or `none` for a malformed class. -/
def classRangesAux (r : Char) : Nat → GoStr → Bool → Bool → Option (Bool × GoStr)
  | 0, _, _, _ => none
  | fuel + 1, chunk, seen, acc =>
    match chunk, seen with
    | ']' :: rest, true => some (acc, rest)
    | chunk', _ =>
      match getEsc chunk' with
      | none => none
      | some (lo, rest1) =>
        match rest1 with
        | '-' :: rest2 =>
          match getEsc rest2 with
          | none => none
          | some (hi, rest3) =>
            classRangesAux r fuel rest3 true (acc || (decide (lo ≤ r) && decide (r ≤ hi)))
        | _ => classRangesAux r fuel rest1 true (acc || (lo == r))

/-- Match a character against a full `[...]` class body (everything after the
opening `[`), handling the optional leading `^` negation. -/
def classMatch (r : Char) (chunk : GoStr) : Option (Bool × GoStr) :=
  match chunk with
  | '^' :: rest => (classRangesAux r (rest.length + 1) rest false false).map (fun p => (!p.1, p.2))
  | _ => classRangesAux r (chunk.length + 1) chunk false false

/-- Fuel-driven worker for `filepathMatch`; fuel above the combined length of
pattern and name suffices. -/
def filepathMatchAux : Nat → GoStr → GoStr → Bool
  | 0, _, _ => false
  | fuel + 1, p, s =>
    match p with
    | [] => s.isEmpty
    | c :: pr =>
      if c = '*' then
        filepathMatchAux fuel pr s ||
          (match s with
           | [] => false
           | d :: sr => d ≠ '/' && filepathMatchAux fuel ('*' :: pr) sr)
      else if c = '?' then
        (match s with
         | [] => false
         | d :: sr => d ≠ '/' && filepathMatchAux fuel pr sr)
      else if c = '[' then
        (match s with
         | [] => false
         | d :: sr =>
           match classMatch d pr with
           | none => false
           | some (ok, rest) => ok && filepathMatchAux fuel rest sr)
      else if c = '\\' then
        (match pr with
         | [] => false
         | e :: pr2 =>
           match s with
           | [] => false
           | d :: sr => d == e && filepathMatchAux fuel pr2 sr)
      else
        (match s with
         | [] => false
         | d :: sr => d == c && filepathMatchAux fuel pr sr)

/-- Model of Go `filepath.Match(pattern, name)` as used by the repository:
`*` matches any run of non-separator characters, `?` one non-separator
character, `[...]` a character class, `\\` escapes; a malformed pattern never
matches (every call site treats `err != nil` as a non-match). -/
def filepathMatch (pattern name : GoStr) : Bool :=
  filepathMatchAux (pattern.length + name.length + 1) pattern name

/-- A single match inside a file (`MatchLine` of `git_operations.go`); the
`context` field exists on the struct but, as shown below, is never populated
by the search pipeline. -/
structure MatchLine where
  LineNumber : Int
  Content : GoStr
  Context : List GoStr
  deriving DecidableEq

/-- A per-file search result (`SearchResult` of `git_operations.go`). -/
structure SearchResult where
  Path : GoStr
  MatchType : GoStr
  Matches : List MatchLine
  deriving DecidableEq

/-- A tracked file of the repository being searched: its path as listed by
`git ls-files`, and its content as a list of lines (without newlines). -/
structure GitFile where
  path : GoStr
  lines : List GoStr
  deriving DecidableEq

/-- The abstract repository: the tracked files, in the (stable, lexicographic)
order `git ls-files` and `git grep` report them. -/
abbrev Repo := List GitFile

/-- Content of a file as read by `GetFileContent` with `maxLines = 0`
(`git_operations.go`): every line followed by a newline. -/
def fileContent (f : GitFile) : GoStr := (f.lines.map (fun l => l ++ ['\n'])).flatten

/-- Model of `GetFileContent(repoPath, path, 0)`: `none` models the error
return for a path that does not exist in the repository. -/
def getFileContent (repo : Repo) (path : GoStr) : Option GoStr :=
  (repo.find? (fun f => f.path == path)).map fileContent

/-- The match lines `git grep -n kw` finds in one file: the 1-based numbered
lines whose text contains `kw`.  This is the semantic description the
pipeline theorems relate the parsed output back to. -/
def matchLinesOf (kw : GoStr) (f : GitFile) : List MatchLine :=
  f.lines.enum.filterMap
    (fun p => if goContains p.2 kw then some ⟨(p.1 + 1 : Nat), p.2, []⟩ else none)

/-- The raw (newline-free) `path:line:content` lines `git grep -n kw` emits
for one file. -/
def rawGrepLines (kw : GoStr) (f : GitFile) : List GoStr :=
  f.lines.enum.filterMap
    (fun p =>
      if goContains p.2 kw then
        some (f.path ++ [':'] ++ natToChars (p.1 + 1) ++ [':'] ++ p.2)
      else none)

/-- Stdout block `git grep -n kw` produces for one file: one
`path:line:content` line per match, each terminated by a newline. -/
def grepFileOutput (kw : GoStr) (f : GitFile) : GoStr :=
  ((rawGrepLines kw f).map (fun l => l ++ ['\n'])).flatten

/-- Model of the stdout of the external command `git grep -n kw` run in the
repository (no `-C` flag, i.e. `contextLines = 0`): the per-file blocks in
repository order. -/
def gitGrepOutput (kw : GoStr) (repo : Repo) : GoStr :=
  (repo.map (grepFileOutput kw)).flatten

/-- All raw grep lines of a search, in output order. -/
def allGrepLines (kw : GoStr) (repo : Repo) : List GoStr :=
  (repo.map (rawGrepLines kw)).flatten

/-- The grep oracle `SearchFilesEnhanced` is run against: keyword to stdout. -/
def repoGrep (repo : Repo) : GoStr → GoStr := fun kw => gitGrepOutput kw repo

/-- The semantic content-search result for one keyword: one `content` result
per file with at least one matching line. -/
def contentHits (kw : GoStr) (repo : Repo) : List SearchResult :=
  repo.filterMap
    (fun f =>
      let ms := matchLinesOf kw f
      if ms = [] then none else some ⟨f.path, gs "content", ms⟩)

/-- One step of the `resultMap` accumulation of `parseGrepOutput`
(`part_001`): append the match line to the entry for `path`, creating the
entry at first sight.  The association list keeps insertion order, realizing
one admissible iteration order of the Go map (see `searchOutcome`). -/
def insertMatchLine : List SearchResult → GoStr → GoStr → MatchLine → List SearchResult
  | [], path, mt, ml => [⟨path, mt, [ml]⟩]
  | r :: rest, path, mt, ml =>
    if r.Path = path then ⟨r.Path, r.MatchType, r.Matches ++ [ml]⟩ :: rest
    else r :: insertMatchLine rest path mt ml

/-- Parse one line of `git grep` output, as the loop body of
`parseGrepOutput`: trim, skip empties, split `file:line:content` on the first
two colons, parse the line number. -/
def parseGrepLine (line : GoStr) : Option (GoStr × Int × GoStr) :=
  let l := goTrimSpace line
  if l = [] then none
  else
    match goSplitN l (gs ":") 3 with
    | [p, ns, c] =>
      match goAtoi ns with
      | some n => some (p, n, c)
      | none => none
    | _ => none

/-- Embedding of `parseGrepOutput` (`part_001`): split the output on
newlines, parse each `file:line:content` line, and group the match lines by
file path.  The `hasCtx` parameter is accepted, and ignored, exactly as the
Go function accepts and ignores `hasContext`. -/
def parseGrepOutput (output mt : GoStr) (hasCtx : Bool) : List SearchResult :=
  if output = [] then []
  else
    (goSplit output (gs "\n")).foldl
      (fun acc line =>
        match parseGrepLine line with
        | some (p, n, c) => insertMatchLine acc p mt ⟨n, c, []⟩
        | none => acc) []

/-- Embedding of `filterResultsByAllKeywords` (`part_001`): keep a candidate
iff its file content, lowercased, contains the lowercase of every keyword; a
file whose content cannot be read is dropped. -/
def filterResultsByAllKeywords (repo : Repo) (results : List SearchResult)
    (keywords : List GoStr) : List SearchResult :=
  results.filter
    (fun r =>
      match getFileContent repo r.Path with
      | none => false
      | some content =>
        keywords.all (fun kw => goContains (goToLower content) (goToLower kw)))

/-- How `removeDuplicateResults` combines the match types of two entries for
the same path (existing entry first). -/
def mergeMatchType (existing incoming : GoStr) : GoStr :=
  if incoming = gs "filename" ∧ existing = gs "content" then gs "both"
  else if incoming = gs "content" ∧ existing = gs "filename" then gs "both"
  else existing

/-- One step of the `seen` accumulation of `removeDuplicateResults`
(`part_001`): merge into the existing entry for the path, or insert. -/
def insertResult : List SearchResult → SearchResult → List SearchResult
  | [], r => [r]
  | e :: rest, r =>
    if e.Path = r.Path then
      ⟨e.Path, mergeMatchType e.MatchType r.MatchType, e.Matches ++ r.Matches⟩ :: rest
    else e :: insertResult rest r

/-- Embedding of `removeDuplicateResults` (`part_001`), with the final map
iteration realized in insertion order (one admissible order of the Go map;
`searchOutcome` quantifies over the others). -/
def removeDuplicateResults (results : List SearchResult) : List SearchResult :=
  results.foldl insertResult []

/-- Embedding of `searchInContent` (`part_001`).  The external `git grep`
process is abstracted as `grep`, mapping a keyword to the command's stdout
(`repoGrep` realizes it for `contextLines = 0`); a failing or matchless grep
is the empty output.  OR mode greps each keyword separately and merges; AND
mode greps the first keyword only and filters the surviving files by the
remaining keywords. -/
def searchInContent (repo : Repo) (grep : GoStr → GoStr) (keywords : List GoStr)
    (searchMode : GoStr) (contextLines : Int) : List SearchResult :=
  if keywords = [] then []
  else if searchMode = gs "or" then
    removeDuplicateResults
      ((keywords.map (fun kw => parseGrepOutput (grep kw) (gs "content") (contextLines > 0))).flatten)
  else
    match keywords with
    | [] => []
    | [kw] => removeDuplicateResults (parseGrepOutput (grep kw) (gs "content") (contextLines > 0))
    | kw0 :: rest =>
      removeDuplicateResults
        (filterResultsByAllKeywords repo
          (parseGrepOutput (grep kw0) (gs "content") (contextLines > 0)) rest)

/-- Loop body of `searchInFilenames` (`part_001`): the synthetic line-0
result for one `git ls-files` line, reported when the base name contains all
(AND) or any (OR) keyword, case-insensitively. -/
def filenameEntry (keywords : List GoStr) (searchMode : GoStr) (f : GitFile) :
    Option SearchResult :=
  let filePath := goTrimSpace f.path
  if filePath = [] then none
  else
    let filename := filepathBase filePath
    let ok :=
      if searchMode = gs "or" then
        keywords.any (fun kw => goContains (goToLower filename) (goToLower kw))
      else
        keywords.all (fun kw => goContains (goToLower filename) (goToLower kw))
    if ok then some ⟨filePath, gs "filename", [⟨0, filename, []⟩]⟩ else none

/-- Embedding of `searchInFilenames` (`part_001`): iterate the `git ls-files`
output (the repository's tracked paths), reporting via `filenameEntry`. -/
def searchInFilenames (repo : Repo) (keywords : List GoStr) (searchMode : GoStr) :
    List SearchResult :=
  repo.filterMap (filenameEntry keywords searchMode)

/-- The deduplicated, pre-truncation result list of `SearchFilesEnhanced`. -/
def searchUnique (repo : Repo) (grep : GoStr → GoStr) (keywords : List GoStr)
    (searchMode : GoStr) (includeFilename : Bool) (contextLines : Int) :
    List SearchResult :=
  removeDuplicateResults
    (searchInContent repo grep keywords searchMode contextLines ++
      (if includeFilename then searchInFilenames repo keywords searchMode else []))

/-- The truncation step of `SearchFilesEnhanced`:
`if maxResults > 0 && len(uniqueResults) > maxResults` keep the first
`maxResults` entries. -/
def applyLimit (maxResults : Int) (l : List SearchResult) : List SearchResult :=
  if maxResults > 0 ∧ (l.length : Int) > maxResults then l.take maxResults.toNat else l

/-- Embedding of `SearchFilesEnhanced` (`part_001`), after the workspace and
git-repository validation glue: empty keyword lists yield an empty result
(with a nil error), otherwise content and optional filename results are
concatenated, deduplicated, and truncated. -/
def SearchFilesEnhanced (repo : Repo) (grep : GoStr → GoStr) (keywords : List GoStr)
    (searchMode : GoStr) (includeFilename : Bool) (contextLines : Int)
    (maxResults : Int) : List SearchResult :=
  if keywords = [] then []
  else applyLimit maxResults (searchUnique repo grep keywords searchMode includeFilename contextLines)

/-- The observable outputs of one run of `SearchFilesEnhanced`: the final
`for ... range seen` loop of `removeDuplicateResults` iterates a Go map,
whose order is unspecified, so any permutation of the deduplicated entries
may be produced before the limit is applied. -/
def searchOutcome (repo : Repo) (grep : GoStr → GoStr) (keywords : List GoStr)
    (searchMode : GoStr) (includeFilename : Bool) (contextLines : Int)
    (maxResults : Int) (out : List SearchResult) : Prop :=
  ∃ l, l.Perm (searchUnique repo grep keywords searchMode includeFilename contextLines) ∧
    out = (if keywords = [] then [] else applyLimit maxResults l)

/-- Outcome of one MCP tool invocation, as the handlers report it: either an
error `CallToolResult` (`IsError: true`) or a successful result list. -/
inductive ToolResult where
  | toolError (msg : GoStr) : ToolResult
  | toolOk (results : List SearchResult) : ToolResult
  deriving DecidableEq

/-- Model of `handleSearchFiles` (`mcp_tools_git.go`): the empty-keyword
validation gate runs before any repository access; everything after the gate
(session defaults, repository resolution, the search itself, formatting) is
abstracted as `run`. -/
def handleSearchFiles (run : Unit → List SearchResult) (keywords : List GoStr) :
    ToolResult :=
  if keywords.length = 0 then ToolResult.toolError (gs "Error: at least one keyword is required")
  else ToolResult.toolOk (run ())

/-- Embedding of `matchesPattern` / `matchesRecursivePattern`
(`git_operations.go`), fused into one fuel-driven function: `recMode = false`
is `matchesPattern`, `recMode = true` is `matchesRecursivePattern`.  The only
recursion between the two Go functions shortens the pattern (the `**/` case
strips three characters), so fuel above the pattern length suffices. -/
def matchesPatternFuel : Nat → Bool → GoStr → GoStr → Bool
  | 0, _, _, _ => false
  | fuel + 1, false, filePath, pattern =>
    -- matchesPattern
    if goSuffixed pattern ['/'] &&
        (let dirPattern := goTrimEnd pattern ['/']
         filePath == dirPattern || goPrefixed filePath (dirPattern ++ ['/'])) then
      true
    else if goContains pattern (gs "**") then
      matchesPatternFuel fuel true filePath pattern
    else if filepathMatch pattern (filepathBase filePath) then true
    else if filepathMatch pattern filePath then true
    else if goContains pattern ['/'] then
      (List.range (goSplit filePath ['/']).length).any
        (fun i =>
          filepathMatch pattern (List.intercalate ['/'] ((goSplit filePath ['/']).take (i + 1))))
    else false
  | fuel + 1, true, filePath, pattern =>
    -- matchesRecursivePattern
    if goPrefixed pattern (gs "**/") && goSuffixed pattern (gs "/**") then
      let middle := goTrimEnd (goTrimStart pattern (gs "**/")) (gs "/**")
      (goSplit filePath ['/']).any (fun part => part == middle)
    else if goPrefixed pattern (gs "**/") then
      let rest := goTrimStart pattern (gs "**/")
      matchesPatternFuel fuel false filePath rest ||
        (List.range (goSplit filePath ['/']).length).any
          (fun i =>
            matchesPatternFuel fuel false
              (List.intercalate ['/'] ((goSplit filePath ['/']).drop i)) rest)
    else
      match goSplit pattern (gs "**") with
      | [p0, p1] =>
        let prefixPart := goTrimEnd p0 ['/']
        let suffixPart := goTrimStart p1 ['/']
        if prefixPart ≠ [] &&
            !(filePath == prefixPart || goPrefixed filePath (prefixPart ++ ['/'])) then
          false
        else if suffixPart ≠ [] then
          if goContains suffixPart ['*'] && !goContains suffixPart (gs "**") then
            let remaining :=
              if prefixPart ≠ [] then goTrimStart (goTrimStart filePath prefixPart) ['/']
              else filePath
            if filepathMatch suffixPart (filepathBase remaining) then true
            else
              (List.range (goSplit remaining ['/']).length).any
                (fun i =>
                  filepathMatch suffixPart
                    (List.intercalate ['/'] ((goSplit remaining ['/']).drop i)))
          else
            goSuffixed filePath suffixPart || goContains filePath (suffixPart ++ ['/'])
        else true
      | _ => false

/-- Embedding of `matchesPattern` (`git_operations.go`). -/
def matchesPattern (filePath pattern : GoStr) : Bool :=
  matchesPatternFuel (pattern.length + 2) false filePath pattern

/-- Embedding of `matchesRecursivePattern` (`git_operations.go`). -/
def matchesRecursivePattern (filePath pattern : GoStr) : Bool :=
  matchesPatternFuel (pattern.length + 2) true filePath pattern

/-- Embedding of `matchesPatterns` (`git_operations.go`): an empty pattern
list matches everything. -/
def matchesPatterns (filePath : GoStr) (patterns : List GoStr) : Bool :=
  if patterns = [] then true else patterns.any (fun p => matchesPattern filePath p)

/-- Embedding of `shouldIncludeFile` (`git_operations.go`): excludes win,
then the include patterns decide (empty includes match everything). -/
def shouldIncludeFile (filePath : GoStr) (includePatterns excludePatterns : List GoStr) :
    Bool :=
  if excludePatterns ≠ [] && matchesPatterns filePath excludePatterns then false
  else matchesPatterns filePath includePatterns

/-- Embedding of `shouldSkipDirectory` (`git_operations.go`): a directory is
pruned when some exclude pattern hits via one of four checks (directory
patterns `X/`, recursive patterns `X/**`, bare names, and `X/*` path
patterns). -/
def shouldSkipDirectory (dirPath : GoStr) (excludePatterns : List GoStr) : Bool :=
  if excludePatterns = [] then false
  else
    excludePatterns.any
      (fun pat =>
        (goSuffixed pat ['/'] &&
          (let dp := goTrimEnd pat ['/']
           dirPath == dp || goPrefixed dirPath (dp ++ ['/']))) ||
        (goSuffixed pat (gs "/**") &&
          (let dp := goTrimEnd pat (gs "/**")
           dirPath == dp || goPrefixed dirPath (dp ++ ['/']))) ||
        ((!goContains pat ['*'] && !goContains pat ['/']) &&
          (dirPath == pat || goPrefixed dirPath (pat ++ ['/']))) ||
        (goSuffixed pat (gs "/*") && goTrimEnd pat (gs "/*") == dirPath))

/-- A path is clean when it is non-empty and contains no colon and no
whitespace characters: exactly the paths whose `git grep` output lines parse
back unambiguously. -/
def cleanPathB (p : GoStr) : Bool :=
  !p.isEmpty && !p.contains ':' && p.all (fun c => !isSpaceChar c)

/-- A content line is clean when it contains no newline and does not end in
whitespace (so the `TrimSpace` of `parseGrepOutput` leaves its grep line
intact). -/
def cleanLineB (l : GoStr) : Bool :=
  !l.contains '\n' && (l.getLast?).elim true (fun c => !isSpaceChar c)

/-- A file is clean when its path and all its lines are. -/
def cleanFileB (f : GitFile) : Bool := cleanPathB f.path && f.lines.all cleanLineB

/-- A repository is clean when its paths are distinct and its files clean. -/
def cleanRepoB (repo : Repo) : Bool :=
  decide ((repo.map (fun f => f.path)).Nodup) && repo.all cleanFileB

/-- All entries of a result list carrying a given path, in order. -/
def pathEntries (p : GoStr) (l : List SearchResult) : List SearchResult :=
  l.filter (fun x => x.Path == p)

/-- Left fold of the duplicate-merging step of `removeDuplicateResults` over
a group of entries for one path. -/
def mergeGroup : SearchResult → List SearchResult → SearchResult
  | r0, [] => r0
  | r0, x :: xs =>
    mergeGroup ⟨r0.Path, mergeMatchType r0.MatchType x.MatchType, r0.Matches ++ x.Matches⟩ xs

/-- Concrete repository for the AND-mode claims: one file in which the first
keyword occurs on line 1 only and the second keyword on both lines. -/
def repoC1 : Repo := [⟨gs "a.txt", [gs "alpha beta", gs "beta"]⟩]

/-- Concrete repository for the OR-mode claims: one file whose single line
contains both keywords. -/
def repoC5 : Repo := [⟨gs "a.txt", [gs "x y"]⟩]

/-- Concrete repository with two matching files (used for the truncation and
ordering claims). -/
def repoC4a : Repo := [⟨gs "a.txt", [gs "kw here"]⟩, ⟨gs "b.txt", [gs "kw too"]⟩]

/-- Concrete repository with a single matching file, whose truncated-at-one
search output coincides with that of `repoC4a`. -/
def repoC4b : Repo := [⟨gs "a.txt", [gs "kw here"]⟩]

/-- Concrete repository with two matching files for the ordering claim. -/
def repoC6 : Repo := [⟨gs "a.txt", [gs "kw here"]⟩, ⟨gs "b.txt", [gs "kw too"]⟩]

/-- The two deduplicated entries the search over `repoC6` produces. -/
def resC6a : SearchResult := ⟨gs "a.txt", gs "content", [⟨1, gs "kw here", []⟩]⟩

/-- Second deduplicated entry of the search over `repoC6`. -/
def resC6b : SearchResult := ⟨gs "b.txt", gs "content", [⟨1, gs "kw too", []⟩]⟩

/-- Concrete repository whose single line matches the first keyword only up
to case (used for the case-sensitivity claim). -/
def repoC10 : Repo := [⟨gs "c.txt", [gs "Alpha beta"]⟩]

/-- Concrete repository for the merge claim: a file whose name and content
both match the keyword. -/
def repoC3 : Repo := [⟨gs "main.go", [gs "func main() {}"]⟩]

/-- A string free of every `filepath.Match` metacharacter: such a pattern
matches only itself. -/
def literalPat (p : GoStr) : Bool :=
  decide ('*' ∉ p ∧ '?' ∉ p ∧ '[' ∉ p ∧ '\\' ∉ p)

/-! ## Facts about the string-operation models -/

theorem goPrefixed_iff {s pre : GoStr} : goPrefixed s pre = true ↔ pre <+: s := by
  simp [goPrefixed, List.isPrefixOf_iff_prefix]

theorem goSuffixed_iff {s suf : GoStr} : goSuffixed s suf = true ↔ suf <:+ s := by
  simp [goSuffixed, List.isSuffixOf_iff_suffix]

theorem goContains_iff {s sub : GoStr} : goContains s sub = true ↔ sub <:+: s := by
  induction s with
  | nil =>
    rw [goContains]
    by_cases hp : sub.isPrefixOf [] = true
    · simp only [hp, if_true, true_iff]
      exact (List.isPrefixOf_iff_prefix.mp hp).isInfix
    · simp only [hp]
      simp only [Bool.false_eq_true, if_false, false_iff]
      rintro ⟨s1, t1, hst⟩
      have hsub : sub = [] := by
        cases sub with
        | nil => rfl
        | cons x xs => simp at hst
      subst hsub
      exact hp (List.isPrefixOf_iff_prefix.mpr List.nil_prefix)
  | cons a t ih =>
    rw [goContains]
    by_cases hp : sub.isPrefixOf (a :: t) = true
    · simp only [hp, if_true, true_iff]
      exact (List.isPrefixOf_iff_prefix.mp hp).isInfix
    · simp only [hp]
      simp only [Bool.false_eq_true, if_false]
      rw [ih, List.infix_cons_iff]
      constructor
      · exact Or.inr
      · rintro (h | h)
        · exact absurd (List.isPrefixOf_iff_prefix.mpr h) hp
        · exact h

theorem goSuffixed_append_self (a b : GoStr) : goSuffixed (a ++ b) b = true :=
  goSuffixed_iff.mpr ⟨a, rfl⟩

theorem goTrimEnd_append (a b : GoStr) : goTrimEnd (a ++ b) b = a := by
  simp [goTrimEnd, goSuffixed_append_self, List.take_left]

theorem goTrimStart_append (a b : GoStr) : goTrimStart (a ++ b) a = b := by
  have : goPrefixed (a ++ b) a = true := goPrefixed_iff.mpr ⟨b, rfl⟩
  simp [goTrimStart, this, List.drop_left]

theorem goSuffixed_snoc_ne {c d : Char} (h : c ≠ d) (a : GoStr) :
    goSuffixed (a ++ [c]) [d] = false := by
  by_contra hb
  have hs : [d] <:+ a ++ [c] := goSuffixed_iff.mp (by simpa using hb)
  obtain ⟨t, ht⟩ := hs
  have := congrArg List.getLast? ht
  simp at this
  exact h this.symm

theorem goContains_mem {s sub : GoStr} (h : goContains s sub = true) :
    ∀ c ∈ sub, c ∈ s := by
  intro c hc
  obtain ⟨t1, t2, hts⟩ := goContains_iff.mp h
  subst hts
  simp [hc]

theorem goPrefixed_trans_append {s a b : GoStr} (h : goPrefixed s (a ++ b) = true)
    (t : GoStr) : goPrefixed (s ++ t) (a ++ b) = true :=
  goPrefixed_iff.mpr ((goPrefixed_iff.mp h).trans (List.prefix_append s t))

theorem indexOfSub_nil {sub : GoStr} (h : sub ≠ []) : indexOfSub [] sub = none := by
  rw [indexOfSub.eq_def]
  cases sub with
  | nil => exact absurd rfl h
  | cons x xs => rfl

theorem indexOfSub_char {c : Char} {a : GoStr} (h : c ∉ a) (b : GoStr) :
    indexOfSub (a ++ c :: b) [c] = some a.length := by
  induction a with
  | nil =>
    rw [indexOfSub.eq_def]
    simp [List.isPrefixOf]
  | cons d a' ih =>
    rw [indexOfSub.eq_def]
    have hdc : d ≠ c := fun hdc => h (hdc ▸ List.mem_cons_self d a')
    have hnp : ([c].isPrefixOf (d :: (a' ++ c :: b))) = false := by
      simp only [List.isPrefixOf, List.cons_append, Bool.and_eq_false_iff]
      left
      simpa using Ne.symm hdc
    simp only [List.cons_append, hnp, Bool.false_eq_true, if_false,
      ih (fun hm => h (List.mem_cons_of_mem d hm)), Option.map_some]
    simp

theorem indexOfSub_star {a : GoStr} (h : '*' ∉ a) (b : GoStr) :
    indexOfSub (a ++ '*' :: '*' :: b) ['*', '*'] = some a.length := by
  induction a with
  | nil =>
    rw [indexOfSub.eq_def]
    simp [List.isPrefixOf]
  | cons d a' ih =>
    rw [indexOfSub.eq_def]
    have hdc : d ≠ '*' := fun hdc => h (hdc ▸ List.mem_cons_self d a')
    have hnp : ((['*', '*'] : GoStr).isPrefixOf (d :: (a' ++ '*' :: '*' :: b))) = false := by
      simp only [List.isPrefixOf, List.cons_append, Bool.and_eq_false_iff]
      left
      simpa using Ne.symm hdc
    simp only [List.cons_append, hnp, Bool.false_eq_true, if_false,
      ih (fun hm => h (List.mem_cons_of_mem d hm)), Option.map_some]
    simp

theorem goSplitAux_ne_nil (sep : GoStr) (fuel : Nat) (s : GoStr) :
    goSplitAux sep fuel s ≠ [] := by
  cases fuel with
  | zero => simp [goSplitAux]
  | succ f =>
    rw [goSplitAux]
    cases indexOfSub s sep <;> simp

theorem indexOfSub_spec {p sub : GoStr} {i : Nat} (h : indexOfSub p sub = some i) :
    p = p.take i ++ sub ++ p.drop (i + sub.length) := by
  induction p generalizing i with
  | nil =>
    rw [indexOfSub.eq_def] at h
    cases hsp : sub.isPrefixOf [] with
    | true =>
      simp [hsp] at h
      subst h
      have hs : sub = [] := by
        obtain ⟨t, ht⟩ := List.isPrefixOf_iff_prefix.mp hsp
        exact List.append_eq_nil.mp ht |>.1
      simp [hs]
    | false => simp [hsp] at h
  | cons d rest ih =>
    rw [indexOfSub.eq_def] at h
    cases hsp : sub.isPrefixOf (d :: rest) with
    | true =>
      simp [hsp] at h
      subst h
      obtain ⟨t, ht⟩ := List.isPrefixOf_iff_prefix.mp hsp
      conv_lhs => rw [← ht]
      simp [← ht]
    | false =>
      simp [hsp] at h
      obtain ⟨j, hj, rfl⟩ := h
      have := ih hj
      calc d :: rest = d :: (rest.take j ++ sub ++ rest.drop (j + sub.length)) := by rw [← this]
        _ = (d :: rest).take (j + 1) ++ sub ++ (d :: rest).drop (j + 1 + sub.length) := by
            simp [List.take_cons, Nat.add_right_comm j 1 sub.length]

theorem intercalate_cons_ne_nil (sep x : GoStr) (M : List GoStr) (h : M ≠ []) :
    List.intercalate sep (x :: M) = x ++ sep ++ List.intercalate sep M := by
  cases M with
  | nil => exact absurd rfl h
  | cons y ys => simp [List.intercalate, List.intersperse]

theorem goSplitAux_intercalate (c : Char) :
    ∀ (fuel : Nat) (p : GoStr), p.length ≤ fuel →
      List.intercalate [c] (goSplitAux [c] fuel p) = p := by
  intro fuel
  induction fuel with
  | zero => intro p _; simp [goSplitAux, List.intercalate]
  | succ f ih =>
    intro p hp
    rw [goSplitAux]
    cases hidx : indexOfSub p [c] with
    | none => simp [List.intercalate]
    | some i =>
      have hspec := indexOfSub_spec hidx
      have hlen : (p.drop (i + 1)).length ≤ f := by
        have h1 : p.length ≥ 1 := by
          by_contra hc
          have hpn : p = [] := by
            cases p with
            | nil => rfl
            | cons a b => simp at hc
          rw [hpn] at hidx
          rw [indexOfSub_nil (by simp)] at hidx
          exact Option.noConfusion hidx
        have : (p.drop (i + 1)).length = p.length - (i + 1) := by simp
        omega
      rw [intercalate_cons_ne_nil [c] (p.take i) _ (goSplitAux_ne_nil _ _ _)]
      rw [ih _ (by simpa using hlen)]
      conv_rhs => rw [hspec]

theorem goSplit_intercalate (c : Char) (p : GoStr) :
    List.intercalate [c] (goSplit p [c]) = p := by
  rw [goSplit]
  simp only [reduceCtorEq, if_false]
  exact goSplitAux_intercalate c p.length p le_rfl

theorem intercalate_take_isPre (sep : GoStr) :
    ∀ (n : Nat) (L : List GoStr),
      List.intercalate sep (L.take n) <+: List.intercalate sep L := by
  intro n
  induction n with
  | zero =>
    intro L
    simp only [List.take_zero]
    have : List.intercalate sep ([] : List GoStr) = [] := by simp [List.intercalate]
    rw [this]
    exact List.nil_prefix
  | succ m ih =>
    intro L
    cases L with
    | nil => simp
    | cons x L' =>
      rw [List.take_succ_cons]
      cases hL' : L'.take m with
      | nil =>
        cases L' with
        | nil => simp
        | cons y ys =>
          rw [intercalate_cons_ne_nil sep x (y :: ys) (by simp)]
          have hx : List.intercalate sep [x] = x := by simp [List.intercalate]
          rw [hx]
          exact ⟨sep ++ List.intercalate sep (y :: ys), by simp⟩
      | cons z zs =>
        have hL'ne : L' ≠ [] := by
          intro hc; rw [hc] at hL'; simp at hL'
        rw [intercalate_cons_ne_nil sep x (z :: zs) (by simp),
          intercalate_cons_ne_nil sep x L' hL'ne]
        obtain ⟨t, ht⟩ := ih L'
        rw [hL'] at ht
        exact ⟨t, by simp [← ht]⟩

theorem sub_split_isPre (c : Char) (p : GoStr) (n : Nat) :
    List.intercalate [c] ((goSplit p [c]).take n) <+: p := by
  have := intercalate_take_isPre [c] n (goSplit p [c])
  rwa [goSplit_intercalate] at this

theorem goSplitAux_flatten_newline :
    ∀ (ls : List GoStr), (∀ l ∈ ls, ('\n') ∉ l) →
      ∀ (fuel : Nat), ((ls.map (fun l => l ++ ['\n'])).flatten).length ≤ fuel →
        goSplitAux ['\n'] fuel ((ls.map (fun l => l ++ ['\n'])).flatten) = ls ++ [[]] := by
  intro ls
  induction ls with
  | nil =>
    intro _ fuel _
    cases fuel with
    | zero => simp [goSplitAux]
    | succ f =>
      rw [goSplitAux]
      rw [List.map_nil, List.flatten_nil, indexOfSub_nil (by simp)]
      rfl
  | cons l ls' ih =>
    intro hnl fuel hf
    have hrw : ((l :: ls').map (fun l => l ++ ['\n'])).flatten
        = l ++ '\n' :: ((ls'.map (fun l => l ++ ['\n'])).flatten) := by
      simp
    rw [hrw] at hf ⊢
    cases fuel with
    | zero =>
      exfalso
      simp at hf
    | succ f =>
      rw [goSplitAux]
      rw [indexOfSub_char (hnl l (by simp)) _]
      have htake : (l ++ '\n' :: ((ls'.map (fun l => l ++ ['\n'])).flatten)).take l.length = l := by
        rw [show l ++ '\n' :: ((ls'.map (fun x => x ++ ['\n'])).flatten)
              = l ++ ('\n' :: ((ls'.map (fun x => x ++ ['\n'])).flatten)) from rfl]
        exact List.take_left l _
      have hdrop : (l ++ '\n' :: ((ls'.map (fun l => l ++ ['\n'])).flatten)).drop (l.length + 1)
          = (ls'.map (fun l => l ++ ['\n'])).flatten := by
        rw [show l ++ '\n' :: ((ls'.map (fun x => x ++ ['\n'])).flatten)
              = (l ++ ['\n']) ++ ((ls'.map (fun x => x ++ ['\n'])).flatten) by simp]
        rw [show l.length + 1 = (l ++ ['\n']).length by simp]
        exact List.drop_left _ _
      simp only [List.length_cons, List.length_nil, Nat.zero_add, htake, hdrop]
      rw [ih (fun x hx => hnl x (by simp [hx])) f (by simp at hf ⊢; omega)]
      rfl

theorem goSplit_flatten_newline (ls : List GoStr) (h : ∀ l ∈ ls, ('\n') ∉ l) :
    goSplit ((ls.map (fun l => l ++ ['\n'])).flatten) (gs "\n") = ls ++ [[]] := by
  rw [goSplit]
  simp only [gs, reduceCtorEq, if_false]
  exact goSplitAux_flatten_newline ls h _ le_rfl

theorem goSplitN_colon {p : GoStr} (h : ':' ∉ p) (rest : GoStr) (n : Nat) :
    goSplitN (p ++ ':' :: rest) (gs ":") (n + 2) = p :: goSplitN rest (gs ":") (n + 1) := by
  rw [goSplitN]
  rw [show (gs ":") = [':'] from rfl, indexOfSub_char h rest]
  have htake : (p ++ ':' :: rest).take p.length = p := List.take_left p _
  have hdrop : (p ++ ':' :: rest).drop (p.length + 1) = rest := by
    rw [show p ++ ':' :: rest = (p ++ [':']) ++ rest by simp,
      show p.length + 1 = (p ++ [':']).length by simp]
    exact List.drop_left _ _
  simp only [List.length_cons, List.length_nil, Nat.zero_add, htake, hdrop]

theorem goSplitN_grepline {p num c : GoStr} (hp : ':' ∉ p) (hnum : ':' ∉ num) :
    goSplitN (p ++ [':'] ++ num ++ [':'] ++ c) (gs ":") 3 = [p, num, c] := by
  have e1 : p ++ [':'] ++ num ++ [':'] ++ c = p ++ ':' :: (num ++ ':' :: c) := by simp
  rw [e1, show (3 : Nat) = 1 + 2 from rfl, goSplitN_colon hp, goSplitN_colon hnum]
  rfl

theorem goSplit_recursive {X : GoStr} (h : '*' ∉ X) :
    goSplit (X ++ gs "/**") (gs "**") = [X ++ ['/'], []] := by
  have hstar : '*' ∉ X ++ ['/'] := by
    intro hm
    rcases List.mem_append.mp hm with hm1 | hm1
    · exact h hm1
    · simp at hm1
  rw [show gs "/**" = '/' :: '*' :: '*' :: [] from rfl, show gs "**" = ['*', '*'] from rfl]
  rw [goSplit]
  rw [if_neg (by simp)]
  rw [show (X ++ '/' :: '*' :: '*' :: []).length = (X.length + 2) + 1 by simp]
  rw [goSplitAux]
  rw [show X ++ '/' :: '*' :: '*' :: [] = (X ++ ['/']) ++ '*' :: '*' :: [] by simp]
  rw [indexOfSub_star hstar []]
  have htake : ((X ++ ['/']) ++ '*' :: '*' :: ([] : GoStr)).take (X ++ ['/']).length
      = X ++ ['/'] := List.take_left _ _
  have hdrop : ((X ++ ['/']) ++ '*' :: '*' :: ([] : GoStr)).drop ((X ++ ['/']).length + (['*', '*'] : GoStr).length) = [] := by
    have hl : ((X ++ ['/']) ++ '*' :: '*' :: ([] : GoStr)).length
        = (X ++ ['/']).length + (['*', '*'] : GoStr).length := by simp
    rw [← hl]
    exact List.drop_length _
  simp only [htake, hdrop]
  rw [show (X.length + 2 : Nat) = (X.length + 1) + 1 from rfl, goSplitAux]
  rw [indexOfSub_nil (by simp)]

theorem digitChar_mem {d : Nat} (h : d < 10) : digitChar d ∈ gs "0123456789" := by
  interval_cases d <;> decide

theorem natToCharsAux_digits :
    ∀ (fuel n : Nat), n < fuel → ∀ c ∈ natToCharsAux fuel n, c ∈ gs "0123456789" := by
  intro fuel
  induction fuel with
  | zero => intro n hn; omega
  | succ f ih =>
    intro n hn c hc
    rw [natToCharsAux] at hc
    by_cases h10 : n < 10
    · simp only [h10, if_true] at hc
      simp at hc
      exact hc ▸ digitChar_mem h10
    · simp only [h10, if_false] at hc
      rcases List.mem_append.mp hc with hm | hm
      · exact ih (n / 10) (by omega) c hm
      · simp at hm
        exact hm ▸ digitChar_mem (Nat.mod_lt _ (by omega))

theorem natToChars_digits {n : Nat} : ∀ c ∈ natToChars n, c ∈ gs "0123456789" :=
  natToCharsAux_digits (n + 1) n (Nat.lt_succ_self n)

theorem natToChars_no_colon {n : Nat} : ':' ∉ natToChars n := by
  intro hm
  have := natToChars_digits ':' hm
  simp [gs] at this

theorem natToChars_no_newline {n : Nat} : '\n' ∉ natToChars n := by
  intro hm
  have := natToChars_digits '\n' hm
  simp [gs] at this

theorem natToCharsAux_ne_nil {fuel n : Nat} (h : n < fuel) : natToCharsAux fuel n ≠ [] := by
  cases fuel with
  | zero => omega
  | succ f =>
    rw [natToCharsAux]
    by_cases h10 : n < 10 <;> simp [h10]

theorem parseDigitsAux_append (acc : Nat) (a b : GoStr) :
    parseDigitsAux acc (a ++ b)
      = (parseDigitsAux acc a).bind (fun m => parseDigitsAux m b) := by
  induction a generalizing acc with
  | nil => simp [parseDigitsAux]
  | cons c a' ih =>
    rw [List.cons_append, parseDigitsAux, parseDigitsAux]
    cases digitVal c with
    | none => simp
    | some d => simp [ih]

theorem digitVal_digitChar {d : Nat} (h : d < 10) : digitVal (digitChar d) = some d := by
  interval_cases d <;> decide

theorem parseDigitsAux_natToCharsAux :
    ∀ (fuel n acc : Nat), n < fuel →
      parseDigitsAux acc (natToCharsAux fuel n)
        = some (acc * 10 ^ (natToCharsAux fuel n).length + n) := by
  intro fuel
  induction fuel with
  | zero => intro n acc hn; omega
  | succ f ih =>
    intro n acc hn
    rw [natToCharsAux]
    by_cases h10 : n < 10
    · simp only [h10, if_true]
      rw [parseDigitsAux, digitVal_digitChar h10]
      simp [parseDigitsAux]
      ring
    · simp only [h10, if_false]
      rw [parseDigitsAux_append]
      rw [ih (n / 10) acc (by omega)]
      rw [Option.some_bind]
      simp only [parseDigitsAux, digitVal_digitChar (Nat.mod_lt _ (by omega))]
      rw [List.length_append]
      simp only [List.length_cons, List.length_nil, Nat.zero_add]
      congr 1
      have : n = 10 * (n / 10) + n % 10 := (Nat.div_add_mod n 10).symm ▸ by omega
      rw [pow_succ]
      ring_nf
      omega

theorem goAtoi_natToChars (n : Nat) : goAtoi (natToChars n) = some (n : Int) := by
  rw [natToChars]
  have hne := natToCharsAux_ne_nil (Nat.lt_succ_self n)
  cases hnc : natToCharsAux (n + 1) n with
  | nil => exact absurd hnc hne
  | cons c rest =>
    have hcd : c ∈ gs "0123456789" := by
      have := natToCharsAux_digits (n + 1) n (Nat.lt_succ_self n) c
      rw [hnc] at this
      exact this (by simp)
    have hplus : c ≠ '+' := by intro hc; rw [hc] at hcd; simp [gs] at hcd
    have hminus : c ≠ '-' := by intro hc; rw [hc] at hcd; simp [gs] at hcd
    have hpd : parseDigits (c :: rest) = some n := by
      rw [parseDigits.eq_def]
      have := parseDigitsAux_natToCharsAux (n + 1) n 0 (Nat.lt_succ_self n)
      rw [hnc] at this
      simpa using this
    have hgo : goAtoi (c :: rest) = (parseDigits (c :: rest)).map Int.ofNat := by
      rw [goAtoi.eq_def]
      simp [hplus, hminus]
    rw [hgo, hpd]
    rfl

theorem dropWhile_eq_self_of_head {p : Char → Bool} {s : GoStr}
    (h : ∀ c, s.head? = some c → p c = false) : s.dropWhile p = s := by
  cases s with
  | nil => rfl
  | cons a t =>
    rw [List.dropWhile_cons_of_neg]
    simp [h a rfl]

theorem goTrimSpace_eq_self {s : GoStr}
    (hh : ∀ c, s.head? = some c → isSpaceChar c = false)
    (hl : ∀ c, s.getLast? = some c → isSpaceChar c = false) : goTrimSpace s = s := by
  rw [goTrimSpace]
  rw [dropWhile_eq_self_of_head hh]
  rw [dropWhile_eq_self_of_head (fun c hc => hl c (by rwa [← List.head?_reverse]))]
  exact List.reverse_reverse s

theorem head?_append_of_ne_nil {a : GoStr} (b : GoStr) (h : a ≠ []) :
    (a ++ b).head? = a.head? := by
  cases a with
  | nil => exact absurd rfl h
  | cons x t => rfl

theorem getLast?_append_of_ne_nil (a : GoStr) {b : GoStr} (h : b ≠ []) :
    (a ++ b).getLast? = b.getLast? := by
  induction a with
  | nil => rfl
  | cons x t ih =>
    rw [List.cons_append]
    cases htb : t ++ b with
    | nil =>
      exact absurd (List.append_eq_nil.mp htb).2 h
    | cons y l' =>
      rw [List.getLast?_cons_cons, ← htb, ih]

theorem parseGrepLine_nil : parseGrepLine [] = none := by decide

theorem parseGrepLine_emit {p l : GoStr} (n : Nat)
    (hp1 : p ≠ []) (hp2 : ':' ∉ p) (hp3 : ∀ c ∈ p, isSpaceChar c = false)
    (hl : ∀ c, l.getLast? = some c → isSpaceChar c = false) :
    parseGrepLine (p ++ [':'] ++ natToChars n ++ [':'] ++ l) = some (p, (n : Int), l) := by
  have hne : p ++ [':'] ++ natToChars n ++ [':'] ++ l ≠ [] := by simp [hp1]
  have hhead : ∀ c, (p ++ [':'] ++ natToChars n ++ [':'] ++ l).head? = some c →
      isSpaceChar c = false := by
    intro c hc
    rw [show p ++ [':'] ++ natToChars n ++ [':'] ++ l
          = p ++ ([':'] ++ natToChars n ++ [':'] ++ l) by simp,
      head?_append_of_ne_nil _ hp1] at hc
    cases p with
    | nil => exact absurd rfl hp1
    | cons x t =>
      simp at hc
      exact hc ▸ hp3 x (by simp)
  have hlast : ∀ c, (p ++ [':'] ++ natToChars n ++ [':'] ++ l).getLast? = some c →
      isSpaceChar c = false := by
    intro c hc
    cases hl0 : l with
    | nil =>
      rw [hl0] at hc
      rw [show p ++ [':'] ++ natToChars n ++ [':'] ++ [] = (p ++ [':'] ++ natToChars n) ++ [':']
            by simp] at hc
      rw [getLast?_append_of_ne_nil _ (by simp)] at hc
      simp at hc
      rw [← hc]
      decide
    | cons y t =>
      rw [show p ++ [':'] ++ natToChars n ++ [':'] ++ l
            = (p ++ [':'] ++ natToChars n ++ [':']) ++ l by simp] at hc
      rw [getLast?_append_of_ne_nil _ (by simp [hl0])] at hc
      exact hl c hc
  have htrim := goTrimSpace_eq_self hhead hlast
  simp only [parseGrepLine, htrim]
  rw [if_neg hne]
  rw [goSplitN_grepline hp2 natToChars_no_colon]
  have hfin : (match goAtoi (natToChars n) with
      | some m => some (p, m, l)
      | none => (none : Option (GoStr × Int × GoStr))) = some (p, (n : Int), l) := by
    rw [goAtoi_natToChars]
  exact hfin

theorem parse_foldl_filterMap (mt : GoStr) :
    ∀ (lines : List GoStr) (acc : List SearchResult),
      lines.foldl (fun acc line =>
        match parseGrepLine line with
        | some (p, n, c) => insertMatchLine acc p mt ⟨n, c, []⟩
        | none => acc) acc
      = (lines.filterMap parseGrepLine).foldl
          (fun acc t => insertMatchLine acc t.1 mt ⟨t.2.1, t.2.2, []⟩) acc := by
  intro lines
  induction lines with
  | nil => intro acc; rfl
  | cons x xs ih =>
    intro acc
    rw [List.foldl_cons, List.filterMap_cons]
    cases hx : parseGrepLine x with
    | none => exact ih acc
    | some t =>
      obtain ⟨p, n, c⟩ := t
      exact ih _

theorem insertMatchLine_fresh {acc : List SearchResult} {path : GoStr}
    (h : ∀ e ∈ acc, e.Path ≠ path) (mt : GoStr) (ml : MatchLine) :
    insertMatchLine acc path mt ml = acc ++ [⟨path, mt, [ml]⟩] := by
  induction acc with
  | nil => rfl
  | cons e rest ih =>
    rw [insertMatchLine]
    rw [if_neg (h e (by simp))]
    rw [ih (fun x hx => h x (by simp [hx]))]
    rfl

theorem insertMatchLine_last {path : GoStr} {mt0 : GoStr} {ms : List MatchLine} :
    ∀ {acc : List SearchResult}, (∀ e ∈ acc, e.Path ≠ path) → ∀ (mt : GoStr) (ml : MatchLine),
      insertMatchLine (acc ++ [⟨path, mt0, ms⟩]) path mt ml
        = acc ++ [⟨path, mt0, ms ++ [ml]⟩] := by
  intro acc
  induction acc with
  | nil =>
    intro _ mt ml
    rw [List.nil_append, insertMatchLine, if_pos rfl, List.nil_append]
  | cons e rest ih =>
    intro h mt ml
    rw [List.cons_append, insertMatchLine, if_neg (h e (by simp))]
    rw [ih (fun x hx => h x (by simp [hx])) mt ml]
    rfl

theorem matchLine_eta {m : MatchLine} (h : m.Context = []) :
    (⟨m.LineNumber, m.Content, []⟩ : MatchLine) = m := by
  cases m
  simp_all

theorem matchLinesOf_context {kw : GoStr} {f : GitFile} :
    ∀ m ∈ matchLinesOf kw f, m.Context = [] := by
  intro m hm
  rw [matchLinesOf] at hm
  obtain ⟨p, _, hp2⟩ := List.mem_filterMap.mp hm
  by_cases hcond : goContains p.2 kw = true
  · simp [hcond] at hp2
    rw [← hp2]
  · simp [hcond] at hp2

theorem foldl_insert_part (mt path : GoStr) :
    ∀ (ms : List MatchLine) (ms0 : List MatchLine) (acc : List SearchResult),
      (∀ m ∈ ms, m.Context = []) →
      (∀ e ∈ acc, e.Path ≠ path) →
      ((ms.map (fun m => ((path, m.LineNumber, m.Content) : GoStr × Int × GoStr)))).foldl
          (fun acc t => insertMatchLine acc t.1 mt ⟨t.2.1, t.2.2, []⟩)
          (acc ++ [⟨path, mt, ms0⟩])
        = acc ++ [⟨path, mt, ms0 ++ ms⟩] := by
  intro ms
  induction ms with
  | nil => intro ms0 acc _ _; simp
  | cons m ms' ih =>
    intro ms0 acc hctx hacc
    rw [List.map_cons, List.foldl_cons]
    have hstep : insertMatchLine (acc ++ [⟨path, mt, ms0⟩]) path mt
        ⟨m.LineNumber, m.Content, []⟩ = acc ++ [⟨path, mt, ms0 ++ [m]⟩] := by
      rw [insertMatchLine_last hacc]
      rw [matchLine_eta (hctx m (by simp))]
    rw [hstep]
    rw [ih (ms0 ++ [m]) acc (fun x hx => hctx x (by simp [hx])) hacc]
    simp

theorem foldl_insert_block (mt path : GoStr) (ms : List MatchLine)
    (acc : List SearchResult) (hctx : ∀ m ∈ ms, m.Context = [])
    (hacc : ∀ e ∈ acc, e.Path ≠ path) :
    ((ms.map (fun m => ((path, m.LineNumber, m.Content) : GoStr × Int × GoStr)))).foldl
        (fun acc t => insertMatchLine acc t.1 mt ⟨t.2.1, t.2.2, []⟩) acc
      = if ms = [] then acc else acc ++ [⟨path, mt, ms⟩] := by
  cases ms with
  | nil => simp
  | cons m ms' =>
    rw [if_neg (by simp)]
    rw [List.map_cons, List.foldl_cons]
    have hstep : insertMatchLine acc path mt ⟨m.LineNumber, m.Content, []⟩
        = acc ++ [⟨path, mt, [m]⟩] := by
      rw [insertMatchLine_fresh hacc]
      rw [matchLine_eta (hctx m (by simp))]
    rw [hstep]
    rw [foldl_insert_part mt path ms' [m] acc (fun x hx => hctx x (by simp [hx])) hacc]
    simp

theorem cleanRepoB_nodup {repo : Repo} (h : cleanRepoB repo = true) :
    (repo.map (fun f => f.path)).Nodup := by
  simp [cleanRepoB] at h
  exact h.1

theorem cleanRepoB_file {repo : Repo} (h : cleanRepoB repo = true) {f : GitFile}
    (hf : f ∈ repo) : cleanFileB f = true := by
  simp [cleanRepoB] at h
  exact h.2 f hf

theorem cleanFileB_path_ne_nil {f : GitFile} (h : cleanFileB f = true) : f.path ≠ [] := by
  simp [cleanFileB, cleanPathB] at h
  intro hc
  rw [hc] at h
  simp at h

theorem cleanFileB_path_no_colon {f : GitFile} (h : cleanFileB f = true) : ':' ∉ f.path := by
  simp [cleanFileB, cleanPathB] at h
  exact h.1.1.2

theorem cleanFileB_path_no_space {f : GitFile} (h : cleanFileB f = true) :
    ∀ c ∈ f.path, isSpaceChar c = false := by
  simp [cleanFileB, cleanPathB] at h
  intro c hc
  simpa using h.1.2 c hc

theorem cleanFileB_line_no_newline {f : GitFile} (h : cleanFileB f = true) {l : GoStr}
    (hl : l ∈ f.lines) : '\n' ∉ l := by
  simp [cleanFileB, cleanLineB] at h
  exact (h.2 l hl).1

theorem cleanFileB_line_last {f : GitFile} (h : cleanFileB f = true) {l : GoStr}
    (hl : l ∈ f.lines) : ∀ c, l.getLast? = some c → isSpaceChar c = false := by
  simp [cleanFileB, cleanLineB] at h
  intro c hc
  have h2 := (h.2 l hl).2
  rw [hc] at h2
  simpa using h2

theorem rawLine_no_newline {kw : GoStr} {f : GitFile} (hcf : cleanFileB f = true) :
    ∀ l ∈ rawGrepLines kw f, '\n' ∉ l := by
  intro l hl
  rw [rawGrepLines] at hl
  obtain ⟨p, hp1, hp2⟩ := List.mem_filterMap.mp hl
  by_cases hcond : goContains p.2 kw = true
  · simp only [hcond, if_true, Option.some_inj] at hp2
    have hline : p.2 ∈ f.lines := by
      have : p.2 ∈ f.lines.enum.map Prod.snd := List.mem_map_of_mem Prod.snd hp1
      rwa [List.enum_map_snd] at this
    intro hm
    rw [← hp2] at hm
    rcases List.mem_append.mp hm with h1 | h1
    · rcases List.mem_append.mp h1 with h2 | h2
      · rcases List.mem_append.mp h2 with h3 | h3
        · rcases List.mem_append.mp h3 with h4 | h4
          · have := cleanFileB_path_no_space hcf _ h4
            simp [isSpaceChar] at this
          · simp at h4
        · exact natToChars_no_newline h3
      · simp at h2
    · exact cleanFileB_line_no_newline hcf hline h1
  · simp [hcond] at hp2

theorem filterMap_parse_rawGrepLines {kw : GoStr} {f : GitFile} (hcf : cleanFileB f = true) :
    (rawGrepLines kw f).filterMap parseGrepLine
      = (matchLinesOf kw f).map (fun m => ((f.path, m.LineNumber, m.Content) : GoStr × Int × GoStr)) := by
  rw [rawGrepLines, matchLinesOf, List.filterMap_filterMap, List.map_filterMap]
  apply List.filterMap_congr
  intro p hp
  have hline : p.2 ∈ f.lines := by
    have : p.2 ∈ f.lines.enum.map Prod.snd := List.mem_map_of_mem Prod.snd hp
    rwa [List.enum_map_snd] at this
  by_cases hcond : goContains p.2 kw = true
  · simp only [hcond, if_true, Option.some_bind, Option.map_some]
    rw [parseGrepLine_emit (p.1 + 1) (cleanFileB_path_ne_nil hcf)
      (cleanFileB_path_no_colon hcf) (cleanFileB_path_no_space hcf)
      (cleanFileB_line_last hcf hline)]
    rfl
  · simp [hcond]

theorem foldl_insert_allfiles (kw mt : GoStr) :
    ∀ (repo : Repo) (acc : List SearchResult),
      (repo.map (fun f => f.path)).Nodup →
      (∀ g ∈ repo, ∀ e ∈ acc, e.Path ≠ g.path) →
      ((repo.map (fun f =>
          (matchLinesOf kw f).map
            (fun m => ((f.path, m.LineNumber, m.Content) : GoStr × Int × GoStr)))).flatten).foldl
          (fun acc t => insertMatchLine acc t.1 mt ⟨t.2.1, t.2.2, []⟩) acc
      = acc ++ (repo.filterMap (fun f =>
          let ms := matchLinesOf kw f
          if ms = [] then none else some ⟨f.path, mt, ms⟩)) := by
  intro repo
  induction repo with
  | nil => intro acc _ _; simp
  | cons f rest ih =>
    intro acc hnd hacc
    rw [List.map_cons, List.flatten_cons, List.foldl_append]
    rw [foldl_insert_block mt f.path (matchLinesOf kw f) acc matchLinesOf_context
      (hacc f (by simp))]
    rw [List.filterMap_cons]
    by_cases hms : matchLinesOf kw f = []
    · rw [if_pos hms, if_pos hms]
      exact ih acc (by simpa using (List.nodup_cons.mp (by simpa using hnd)).2)
        (fun g hg e he => hacc g (by simp [hg]) e he)
    · rw [if_neg hms, if_neg hms]
      have hfresh : ∀ g ∈ rest, ∀ e ∈ acc ++ [⟨f.path, mt, matchLinesOf kw f⟩], e.Path ≠ g.path := by
        intro g hg e he
        rcases List.mem_append.mp he with h1 | h1
        · exact hacc g (by simp [hg]) e h1
        · simp at h1
          rw [h1]
          intro hc
          have hnd2 : (∀ x ∈ rest, ¬x.path = f.path) ∧
              (rest.map (fun f => f.path)).Nodup := by simpa using hnd
          exact hnd2.1 g hg (by simpa using hc.symm)
      rw [ih _ (by simpa using (List.nodup_cons.mp (by simpa using hnd)).2) hfresh]
      simp

theorem gitGrepOutput_eq (kw : GoStr) (repo : Repo) :
    gitGrepOutput kw repo = ((allGrepLines kw repo).map (fun l => l ++ ['\n'])).flatten := by
  induction repo with
  | nil => rfl
  | cons f rest ih =>
    rw [gitGrepOutput, allGrepLines] at *
    simp only [List.map_cons, List.flatten_cons, List.map_append, List.flatten_append]
    rw [← ih]
    rfl

theorem rawGrepLines_eq_nil_iff {kw : GoStr} {f : GitFile} :
    rawGrepLines kw f = [] ↔ matchLinesOf kw f = [] := by
  rw [rawGrepLines, matchLinesOf, List.filterMap_eq_nil_iff, List.filterMap_eq_nil_iff]
  constructor <;> intro h p hp <;> have := h p hp <;> by_cases hcond : goContains p.2 kw = true <;>
    simp [hcond] at this ⊢

theorem grepFileOutput_eq_nil_iff {kw : GoStr} {f : GitFile} :
    grepFileOutput kw f = [] ↔ matchLinesOf kw f = [] := by
  rw [grepFileOutput, ← rawGrepLines_eq_nil_iff]
  rw [List.flatten_eq_nil_iff]
  constructor
  · intro h
    cases hr : rawGrepLines kw f with
    | nil => rfl
    | cons x xs =>
      have := h (x ++ ['\n']) (by rw [hr]; simp)
      simp at this
  · intro h l hl
    rw [h] at hl
    simp at hl

theorem contentHits_eq_nil_of_grep_nil {kw : GoStr} {repo : Repo}
    (h : gitGrepOutput kw repo = []) : contentHits kw repo = [] := by
  rw [contentHits, List.filterMap_eq_nil_iff]
  intro f hf
  rw [gitGrepOutput, List.flatten_eq_nil_iff] at h
  have hms : matchLinesOf kw f = [] :=
    grepFileOutput_eq_nil_iff.mp (h _ (List.mem_map_of_mem (grepFileOutput kw) hf))
  simp [hms]

theorem parseGrepOutput_gitGrep {kw : GoStr} {repo : Repo} (hc : cleanRepoB repo = true)
    (hasCtx : Bool) :
    parseGrepOutput (gitGrepOutput kw repo) (gs "content") hasCtx = contentHits kw repo := by
  rw [parseGrepOutput]
  by_cases hout : gitGrepOutput kw repo = []
  · rw [if_pos hout, contentHits_eq_nil_of_grep_nil hout]
  · rw [if_neg hout]
    have hnl : ∀ l ∈ allGrepLines kw repo, '\n' ∉ l := by
      intro l hl
      rw [allGrepLines] at hl
      obtain ⟨raws, hraws, hlraw⟩ := List.mem_flatten.mp hl
      obtain ⟨f, hf, hfr⟩ := List.mem_map.mp hraws
      exact rawLine_no_newline (cleanRepoB_file hc hf) l (hfr ▸ hlraw)
    rw [gitGrepOutput_eq, goSplit_flatten_newline _ hnl]
    rw [parse_foldl_filterMap]
    rw [List.filterMap_append]
    have hnil : ([([] : GoStr)]).filterMap parseGrepLine = [] := by
      simp [parseGrepLine_nil]
    rw [hnil, List.append_nil]
    have hfm : (allGrepLines kw repo).filterMap parseGrepLine
        = ((repo.map (fun f =>
            (matchLinesOf kw f).map
              (fun m => ((f.path, m.LineNumber, m.Content) : GoStr × Int × GoStr))))).flatten := by
      rw [allGrepLines, List.filterMap_flatten, List.map_map]
      congr 1
      apply List.map_congr_left
      intro f hf
      exact filterMap_parse_rawGrepLines (cleanRepoB_file hc hf)
    rw [hfm]
    rw [foldl_insert_allfiles kw (gs "content") repo [] (cleanRepoB_nodup hc)
      (fun g _ e he => absurd he (List.not_mem_nil e))]
    rw [List.nil_append]
    rfl

theorem insertResult_fresh {acc : List SearchResult} {r : SearchResult}
    (h : ∀ e ∈ acc, e.Path ≠ r.Path) : insertResult acc r = acc ++ [r] := by
  induction acc with
  | nil => rfl
  | cons e rest ih =>
    rw [insertResult, if_neg (h e (by simp)), ih (fun x hx => h x (by simp [hx]))]
    rfl

theorem insertResult_found {e r : SearchResult} (he : e.Path = r.Path) :
    ∀ {acc1 : List SearchResult} (acc2 : List SearchResult),
      (∀ a ∈ acc1, a.Path ≠ r.Path) →
      insertResult (acc1 ++ e :: acc2) r
        = acc1 ++ ⟨e.Path, mergeMatchType e.MatchType r.MatchType, e.Matches ++ r.Matches⟩ :: acc2 := by
  intro acc1
  induction acc1 with
  | nil =>
    intro acc2 _
    rw [List.nil_append, insertResult, if_pos he, List.nil_append]
  | cons a rest ih =>
    intro acc2 h
    rw [List.cons_append, insertResult, if_neg (h a (by simp)),
      ih acc2 (fun x hx => h x (by simp [hx]))]
    rfl

theorem RD_concat (l : List SearchResult) (x : SearchResult) :
    removeDuplicateResults (l ++ [x]) = insertResult (removeDuplicateResults l) x := by
  rw [removeDuplicateResults, removeDuplicateResults, List.foldl_append]
  rfl

theorem mergeGroup_path : ∀ (gp : List SearchResult) (r0 : SearchResult),
    (mergeGroup r0 gp).Path = r0.Path := by
  intro gp
  induction gp with
  | nil => intro r0; rfl
  | cons x xs ih => intro r0; rw [mergeGroup, ih]

theorem mergeGroup_snoc : ∀ (gp : List SearchResult) (r0 x : SearchResult),
    mergeGroup r0 (gp ++ [x])
      = ⟨(mergeGroup r0 gp).Path,
          mergeMatchType (mergeGroup r0 gp).MatchType x.MatchType,
          (mergeGroup r0 gp).Matches ++ x.Matches⟩ := by
  intro gp
  induction gp with
  | nil => intro r0 x; rfl
  | cons y ys ih => intro r0 x; rw [List.cons_append, mergeGroup, mergeGroup, ih]

theorem pathEntries_append (p : GoStr) (l1 l2 : List SearchResult) :
    pathEntries p (l1 ++ l2) = pathEntries p l1 ++ pathEntries p l2 := by
  rw [pathEntries, pathEntries, pathEntries, List.filter_append]

theorem pathEntries_nil_of_not_mem {p : GoStr} {l : List SearchResult}
    (h : p ∉ l.map (fun r => r.Path)) : pathEntries p l = [] := by
  rw [pathEntries, List.filter_eq_nil_iff]
  intro a ha
  simp only [beq_iff_eq]
  intro hc
  exact h (hc ▸ List.mem_map_of_mem (fun r => r.Path) ha)

theorem pathEntries_single_self (x : SearchResult) : pathEntries x.Path [x] = [x] := by
  simp [pathEntries]

theorem pathEntries_single_ne {p : GoStr} {x : SearchResult} (h : x.Path ≠ p) :
    pathEntries p [x] = [] := by
  simp [pathEntries, h]

theorem nodup_split_facts {acc1 acc2 : List SearchResult} {e : SearchResult}
    (h : ((acc1 ++ e :: acc2).map (fun r => r.Path)).Nodup) :
    (∀ a ∈ acc1, a.Path ≠ e.Path) ∧ (∀ a ∈ acc2, a.Path ≠ e.Path) := by
  rw [List.map_append, List.map_cons, List.nodup_append] at h
  obtain ⟨_, h2, h3⟩ := h
  constructor
  · intro a ha hc
    exact h3 (List.mem_map_of_mem (fun r => r.Path) ha) (by simp [hc])
  · intro a ha hc
    exact (List.nodup_cons.mp h2).1 (hc ▸ List.mem_map_of_mem (fun r => r.Path) ha)

theorem RD_master (l : List SearchResult) :
    ((removeDuplicateResults l).map (fun r => r.Path)).Nodup ∧
    (∀ p, p ∈ (removeDuplicateResults l).map (fun r => r.Path) ↔ p ∈ l.map (fun r => r.Path)) ∧
    (∀ r ∈ removeDuplicateResults l,
      ∃ g gp, pathEntries r.Path l = g :: gp ∧ r = mergeGroup g gp) := by
  induction l using List.reverseRecOn with
  | nil =>
    refine ⟨by simp [removeDuplicateResults], by simp [removeDuplicateResults],
      by simp [removeDuplicateResults]⟩
  | append_singleton l x ih =>
    obtain ⟨ihnd, ihmem, ihent⟩ := ih
    rw [RD_concat]
    by_cases hx : x.Path ∈ (removeDuplicateResults l).map (fun r => r.Path)
    · obtain ⟨e, he_mem, he_path⟩ := List.mem_map.mp hx
      obtain ⟨acc1, acc2, hsplit⟩ := List.append_of_mem he_mem
      have hnd' := hsplit ▸ ihnd
      have hfacts := nodup_split_facts hnd'
      have hfresh1 : ∀ a ∈ acc1, a.Path ≠ x.Path := fun a ha => he_path ▸ hfacts.1 a ha
      rw [hsplit, insertResult_found he_path acc2 hfresh1]
      have hpaths : ((acc1 ++
          (⟨e.Path, mergeMatchType e.MatchType x.MatchType, e.Matches ++ x.Matches⟩ : SearchResult)
            :: acc2).map (fun r => r.Path))
          = ((acc1 ++ e :: acc2).map (fun r => r.Path)) := by
        simp
      refine ⟨hpaths ▸ hnd', ?_, ?_⟩
      · intro p
        rw [hpaths]
        rw [← hsplit]
        rw [ihmem p]
        simp only [List.map_append, List.map_cons, List.map_nil, List.mem_append,
          List.mem_cons, List.not_mem_nil, or_false]
        constructor
        · exact Or.inl
        · rintro (h1 | h1)
          · exact h1
          · rw [h1, ← he_path]
            rw [← ihmem e.Path]
            exact List.mem_map_of_mem (fun r => r.Path) he_mem
      · intro r hr
        rcases List.mem_append.mp hr with h1 | h1
        · have hrl : r ∈ removeDuplicateResults l := by
            rw [hsplit]
            exact List.mem_append.mpr (Or.inl h1)
          obtain ⟨g, gp, hge, hgm⟩ := ihent r hrl
          refine ⟨g, gp, ?_, hgm⟩
          rw [pathEntries_append, hge,
            pathEntries_single_ne (fun hc => hfacts.1 r h1 (hc.symm.trans he_path.symm))]
          simp
        · rcases List.mem_cons.mp h1 with h2 | h2
          · obtain ⟨g, gp, hge, hgm⟩ := ihent e he_mem
            refine ⟨g, gp ++ [x], ?_, ?_⟩
            · have hre : r.Path = e.Path := by rw [h2]
              rw [hre, pathEntries_append, hge]
              have : pathEntries e.Path [x] = [x] := by
                have := pathEntries_single_self x
                rw [← he_path] at this
                exact this
              rw [this]
              rfl
            · rw [mergeGroup_snoc, ← hgm, h2]
          · have hrl : r ∈ removeDuplicateResults l := by
              rw [hsplit]
              exact List.mem_append.mpr (Or.inr (List.mem_cons.mpr (Or.inr h2)))
            obtain ⟨g, gp, hge, hgm⟩ := ihent r hrl
            refine ⟨g, gp, ?_, hgm⟩
            rw [pathEntries_append, hge,
              pathEntries_single_ne (fun hc => hfacts.2 r h2 (hc.symm.trans he_path.symm))]
            simp
    · have hfr : ∀ e ∈ removeDuplicateResults l, e.Path ≠ x.Path := by
        intro e he hc
        exact hx (hc ▸ List.mem_map_of_mem (fun r => r.Path) he)
      rw [insertResult_fresh hfr]
      refine ⟨?_, ?_, ?_⟩
      · rw [List.map_append]
        rw [List.nodup_append]
        refine ⟨ihnd, by simp, ?_⟩
        intro p hp
        simp only [List.map_cons, List.map_nil, List.mem_cons, List.not_mem_nil, or_false]
        intro hc
        obtain ⟨e, he, hep⟩ := List.mem_map.mp hp
        exact hfr e he (hep.symm ▸ hc ▸ rfl)
      · intro p
        simp only [List.map_append, List.mem_append]
        rw [ihmem p]
      · intro r hr
        rcases List.mem_append.mp hr with h1 | h1
        · obtain ⟨g, gp, hge, hgm⟩ := ihent r h1
          refine ⟨g, gp, ?_, hgm⟩
          have hne : x.Path ≠ r.Path := fun hc => hfr r h1 hc.symm
          rw [pathEntries_append, hge, pathEntries_single_ne hne]
          simp
        · simp at h1
          subst h1
          refine ⟨r, [], ?_, rfl⟩
          rw [pathEntries_append]
          rw [pathEntries_nil_of_not_mem (fun hc => hx ((ihmem r.Path).mpr hc))]
          rw [pathEntries_single_self]
          rfl

theorem RD_nodup (l : List SearchResult) :
    ((removeDuplicateResults l).map (fun r => r.Path)).Nodup := (RD_master l).1

theorem RD_mem (l : List SearchResult) (p : GoStr) :
    p ∈ (removeDuplicateResults l).map (fun r => r.Path) ↔ p ∈ l.map (fun r => r.Path) :=
  (RD_master l).2.1 p

theorem RD_entry (l : List SearchResult) :
    ∀ r ∈ removeDuplicateResults l,
      ∃ g gp, pathEntries r.Path l = g :: gp ∧ r = mergeGroup g gp := (RD_master l).2.2

theorem mergeMatchType_self (t : GoStr) : mergeMatchType t t = t := by
  rw [mergeMatchType]
  by_cases h1 : t = gs "filename" ∧ t = gs "content"
  · exact absurd (h1.1.symm.trans h1.2) (by decide)
  · rw [if_neg h1]
    by_cases h2 : t = gs "content" ∧ t = gs "filename"
    · exact absurd (h2.1.symm.trans h2.2) (by decide)
    · rw [if_neg h2]

theorem mergeGroup_type_same {t : GoStr} : ∀ (gp : List SearchResult) (r0 : SearchResult),
    r0.MatchType = t → (∀ x ∈ gp, x.MatchType = t) → (mergeGroup r0 gp).MatchType = t := by
  intro gp
  induction gp with
  | nil => intro r0 h0 _; exact h0
  | cons x xs ih =>
    intro r0 h0 hall
    rw [mergeGroup]
    exact ih _ (by simp [h0, hall x (by simp), mergeMatchType_self]) (fun y hy => hall y (by simp [hy]))

theorem mergeGroup_matches : ∀ (gp : List SearchResult) (r0 : SearchResult),
    (mergeGroup r0 gp).Matches = r0.Matches ++ (gp.map (fun x => x.Matches)).flatten := by
  intro gp
  induction gp with
  | nil => intro r0; simp [mergeGroup]
  | cons x xs ih => intro r0; rw [mergeGroup, ih]; simp

theorem RD_same_type {l : List SearchResult} {t : GoStr} (h : ∀ x ∈ l, x.MatchType = t) :
    ∀ r ∈ removeDuplicateResults l,
      r.MatchType = t ∧
      r.Matches = ((pathEntries r.Path l).map (fun x => x.Matches)).flatten := by
  intro r hr
  obtain ⟨g, gp, hge, hgm⟩ := RD_entry l r hr
  have hgmem : ∀ x ∈ g :: gp, x ∈ l := by
    intro x hx
    have hx2 : x ∈ pathEntries r.Path l := hge ▸ hx
    exact List.mem_of_mem_filter hx2
  constructor
  · rw [hgm]
    exact mergeGroup_type_same gp g (h g (hgmem g (by simp)))
      (fun x hx => h x (hgmem x (by simp [hx])))
  · have hgp : g.Path = r.Path := by rw [hgm, mergeGroup_path]
    rw [hgm, mergeGroup_matches, mergeGroup_path, hgp, hge]
    simp

theorem pathEntries_of_nodup : ∀ {A : List SearchResult},
    (A.map (fun r => r.Path)).Nodup → ∀ {a : SearchResult}, a ∈ A →
      pathEntries a.Path A = [a] := by
  intro A
  induction A with
  | nil => intro _ a ha; simp at ha
  | cons y ys ih =>
    intro hnd a ha
    have hnd2 : (ys.map (fun r => r.Path)).Nodup := by
      rw [List.map_cons, List.nodup_cons] at hnd
      exact hnd.2
    have hyni : y.Path ∉ ys.map (fun r => r.Path) := by
      rw [List.map_cons, List.nodup_cons] at hnd
      exact hnd.1
    rcases List.mem_cons.mp ha with h1 | h1
    · subst h1
      rw [pathEntries]
      rw [List.filter_cons_of_pos (by simp)]
      have : pathEntries a.Path ys = [] :=
        pathEntries_nil_of_not_mem (by exact hyni)
      rw [pathEntries] at this
      rw [this]
    · have hne : y.Path ≠ a.Path := by
        intro hc
        exact hyni (hc ▸ List.mem_map_of_mem (fun r => r.Path) h1)
      rw [pathEntries, List.filter_cons_of_neg (by simp [hne])]
      rw [← pathEntries]
      exact ih hnd2 h1

theorem insertMatchLine_types {mt : GoStr} :
    ∀ {acc : List SearchResult} {path : GoStr} {ml : MatchLine},
      (∀ r ∈ acc, r.MatchType = mt) →
      ∀ r ∈ insertMatchLine acc path mt ml, r.MatchType = mt := by
  intro acc
  induction acc with
  | nil =>
    intro path ml _ r hr
    rw [insertMatchLine] at hr
    simp at hr
    rw [hr]
  | cons e rest ih =>
    intro path ml h r hr
    rw [insertMatchLine] at hr
    by_cases he : e.Path = path
    · rw [if_pos he] at hr
      rcases List.mem_cons.mp hr with h1 | h1
      · rw [h1]
        exact h e (by simp)
      · exact h r (by simp [h1])
    · rw [if_neg he] at hr
      rcases List.mem_cons.mp hr with h1 | h1
      · rw [h1]; exact h e (by simp)
      · exact ih (fun x hx => h x (by simp [hx])) r h1

theorem foldl_parse_types (mt : GoStr) :
    ∀ (lines : List GoStr) (acc : List SearchResult),
      (∀ r ∈ acc, r.MatchType = mt) →
      ∀ r ∈ lines.foldl (fun acc line =>
          match parseGrepLine line with
          | some (p, n, c) => insertMatchLine acc p mt ⟨n, c, []⟩
          | none => acc) acc, r.MatchType = mt := by
  intro lines
  induction lines with
  | nil => intro acc h r hr; exact h r hr
  | cons x xs ih =>
    intro acc h r hr
    rw [List.foldl_cons] at hr
    cases hx : parseGrepLine x with
    | none =>
      rw [hx] at hr
      exact ih acc h r hr
    | some t =>
      obtain ⟨p, n, c⟩ := t
      rw [hx] at hr
      exact ih _ (insertMatchLine_types h) r hr

theorem parseGrepOutput_types (output mt : GoStr) (hc : Bool) :
    ∀ r ∈ parseGrepOutput output mt hc, r.MatchType = mt := by
  rw [parseGrepOutput]
  by_cases ho : output = []
  · rw [if_pos ho]; intro r hr; simp at hr
  · rw [if_neg ho]
    exact foldl_parse_types mt _ [] (by intro r hr; simp at hr)

theorem insertMatchLine_context {mt : GoStr} :
    ∀ {acc : List SearchResult} {path : GoStr} {ml : MatchLine},
      ml.Context = [] →
      (∀ r ∈ acc, ∀ m ∈ r.Matches, m.Context = []) →
      ∀ r ∈ insertMatchLine acc path mt ml, ∀ m ∈ r.Matches, m.Context = [] := by
  intro acc
  induction acc with
  | nil =>
    intro path ml hml _ r hr m hm
    rw [insertMatchLine] at hr
    simp at hr
    rw [hr] at hm
    simp at hm
    rw [hm]
    exact hml
  | cons e rest ih =>
    intro path ml hml h r hr m hm
    rw [insertMatchLine] at hr
    by_cases he : e.Path = path
    · rw [if_pos he] at hr
      rcases List.mem_cons.mp hr with h1 | h1
      · rw [h1] at hm
        simp at hm
        rcases hm with h2 | h2
        · exact h e (by simp) m h2
        · rw [h2]
          exact hml
      · exact h r (by simp [h1]) m hm
    · rw [if_neg he] at hr
      rcases List.mem_cons.mp hr with h1 | h1
      · rw [h1] at hm
        exact h e (by simp) m hm
      · exact ih hml (fun x hx => h x (by simp [hx])) r h1 m hm

theorem foldl_parse_context (mt : GoStr) :
    ∀ (lines : List GoStr) (acc : List SearchResult),
      (∀ r ∈ acc, ∀ m ∈ r.Matches, m.Context = []) →
      ∀ r ∈ lines.foldl (fun acc line =>
          match parseGrepLine line with
          | some (p, n, c) => insertMatchLine acc p mt ⟨n, c, []⟩
          | none => acc) acc, ∀ m ∈ r.Matches, m.Context = [] := by
  intro lines
  induction lines with
  | nil => intro acc h r hr; exact h r hr
  | cons x xs ih =>
    intro acc h r hr
    rw [List.foldl_cons] at hr
    cases hx : parseGrepLine x with
    | none =>
      rw [hx] at hr
      exact ih acc h r hr
    | some t =>
      obtain ⟨p, n, c⟩ := t
      rw [hx] at hr
      exact ih _ (insertMatchLine_context rfl h) r hr

theorem searchInContent_eq_RD (repo : Repo) (grep : GoStr → GoStr) (keywords : List GoStr)
    (mode : GoStr) (ctx : Int) :
    searchInContent repo grep keywords mode ctx = [] ∨
    ∃ X, searchInContent repo grep keywords mode ctx = removeDuplicateResults X ∧
      ∀ x ∈ X, x.MatchType = gs "content" := by
  rw [searchInContent.eq_def]
  by_cases hk : keywords = []
  · left; rw [if_pos hk]
  · rw [if_neg hk]
    by_cases hm : mode = gs "or"
    · rw [if_pos hm]
      right
      refine ⟨_, rfl, ?_⟩
      intro x hx
      obtain ⟨sub, hsub, hxs⟩ := List.mem_flatten.mp hx
      obtain ⟨kw, _, hkw⟩ := List.mem_map.mp hsub
      exact parseGrepOutput_types _ _ _ x (hkw ▸ hxs)
    · rw [if_neg hm]
      cases keywords with
      | nil => left; rfl
      | cons kw0 rest =>
        cases rest with
        | nil =>
          right
          exact ⟨_, rfl, parseGrepOutput_types _ _ _⟩
        | cons k1 rest' =>
          right
          refine ⟨_, rfl, ?_⟩
          intro x hx
          rw [filterResultsByAllKeywords] at hx
          exact parseGrepOutput_types _ _ _ x (List.mem_of_mem_filter hx)

theorem searchInContent_nodup (repo : Repo) (grep : GoStr → GoStr) (keywords : List GoStr)
    (mode : GoStr) (ctx : Int) :
    ((searchInContent repo grep keywords mode ctx).map (fun r => r.Path)).Nodup := by
  rcases searchInContent_eq_RD repo grep keywords mode ctx with h | ⟨X, hX, _⟩
  · simp [h]
  · rw [hX]; exact RD_nodup X

theorem searchInContent_types (repo : Repo) (grep : GoStr → GoStr) (keywords : List GoStr)
    (mode : GoStr) (ctx : Int) :
    ∀ r ∈ searchInContent repo grep keywords mode ctx, r.MatchType = gs "content" := by
  rcases searchInContent_eq_RD repo grep keywords mode ctx with h | ⟨X, hX, hT⟩
  · rw [h]; intro r hr; simp at hr
  · rw [hX]; intro r hr; exact (RD_same_type hT r hr).1

theorem filterMap_sublist_map {α β : Type} (f : α → Option β) (h : α → β)
    (hfb : ∀ a b, f a = some b → b = h a) :
    ∀ l : List α, List.Sublist (l.filterMap f) (l.map h) := by
  intro l
  induction l with
  | nil => simp
  | cons x xs ih =>
    rw [List.filterMap_cons, List.map_cons]
    cases hx : f x with
    | none => exact List.Sublist.cons _ ih
    | some b =>
      rw [hfb x b hx]
      exact List.Sublist.cons₂ _ ih

theorem filenameEntry_some {keywords : List GoStr} {mode : GoStr} {f : GitFile}
    {r : SearchResult} (h : filenameEntry keywords mode f = some r) :
    r = ⟨goTrimSpace f.path, gs "filename",
          [⟨0, filepathBase (goTrimSpace f.path), []⟩]⟩ := by
  rw [filenameEntry] at h
  simp only at h
  split at h
  · exact Option.noConfusion h
  · split at h
    all_goals split at h
    all_goals
      first
        | exact (Option.some.inj h).symm
        | exact Option.noConfusion h

theorem searchInFilenames_types (repo : Repo) (keywords : List GoStr) (mode : GoStr) :
    ∀ r ∈ searchInFilenames repo keywords mode, r.MatchType = gs "filename" := by
  intro r hr
  rw [searchInFilenames] at hr
  obtain ⟨f, _, hf2⟩ := List.mem_filterMap.mp hr
  rw [filenameEntry_some hf2]

theorem searchInFilenames_path (repo : Repo) (keywords : List GoStr) (mode : GoStr) :
    ∀ r ∈ searchInFilenames repo keywords mode, ∃ f ∈ repo, r.Path = goTrimSpace f.path := by
  intro r hr
  rw [searchInFilenames] at hr
  obtain ⟨f, hf1, hf2⟩ := List.mem_filterMap.mp hr
  exact ⟨f, hf1, by rw [filenameEntry_some hf2]⟩

theorem searchInFilenames_nodup (repo : Repo) (keywords : List GoStr) (mode : GoStr)
    (h : (repo.map (fun f => goTrimSpace f.path)).Nodup) :
    ((searchInFilenames repo keywords mode).map (fun r => r.Path)).Nodup := by
  rw [searchInFilenames, List.map_filterMap]
  refine List.Nodup.sublist ?_ h
  apply filterMap_sublist_map
  intro f p hp
  cases hop : filenameEntry keywords mode f with
  | none => rw [hop] at hp; exact Option.noConfusion hp
  | some r =>
    rw [hop] at hp
    simp at hp
    rw [← hp, filenameEntry_some hop]

theorem contentHits_mem {kw : GoStr} {repo : Repo} {r : SearchResult} :
    r ∈ contentHits kw repo ↔
      ∃ f ∈ repo, matchLinesOf kw f ≠ [] ∧ r = ⟨f.path, gs "content", matchLinesOf kw f⟩ := by
  rw [contentHits, List.mem_filterMap]
  constructor
  · rintro ⟨f, hf, hsome⟩
    simp only at hsome
    by_cases hms : matchLinesOf kw f = []
    · rw [if_pos hms] at hsome
      exact Option.noConfusion hsome
    · rw [if_neg hms] at hsome
      exact ⟨f, hf, hms, (Option.some.inj hsome).symm⟩
  · rintro ⟨f, hf, hms, hr⟩
    refine ⟨f, hf, ?_⟩
    simp only
    rw [if_neg hms, hr]

theorem matchLinesOf_ne_nil_iff {kw : GoStr} {f : GitFile} :
    matchLinesOf kw f ≠ [] ↔ ∃ l ∈ f.lines, goContains l kw = true := by
  constructor
  · intro h
    by_contra hcon
    push_neg at hcon
    apply h
    rw [matchLinesOf, List.filterMap_eq_nil_iff]
    intro p hp
    have hl : p.2 ∈ f.lines := by
      have : p.2 ∈ f.lines.enum.map Prod.snd := List.mem_map_of_mem Prod.snd hp
      rwa [List.enum_map_snd] at this
    have : goContains p.2 kw = false := by
      have := hcon p.2 hl
      exact Bool.not_eq_true _ ▸ (by simpa using this)
    simp [this]
  · rintro ⟨l, hl, hcont⟩ hnil
    have : l ∈ f.lines.enum.map Prod.snd := by rwa [List.enum_map_snd]
    obtain ⟨p, hp, hps⟩ := List.mem_map.mp this
    rw [matchLinesOf] at hnil
    have h2 := List.filterMap_eq_nil_iff.mp hnil p hp
    rw [hps, hcont] at h2
    simp at h2

theorem find?_of_nodup : ∀ {repo : Repo}, (repo.map (fun f => f.path)).Nodup →
    ∀ {f : GitFile}, f ∈ repo → repo.find? (fun g => g.path == f.path) = some f := by
  intro repo
  induction repo with
  | nil => intro _ f hf; simp at hf
  | cons y ys ih =>
    intro h f hf
    rw [List.map_cons, List.nodup_cons] at h
    rcases List.mem_cons.mp hf with h1 | h1
    · subst h1
      rw [List.find?_cons_of_pos _ (by simp)]
    · have hne : y.path ≠ f.path := by
        intro hc
        exact h.1 (hc ▸ List.mem_map_of_mem (fun g => g.path) h1)
      rw [List.find?_cons_of_neg _ (by simp [hne])]
      exact ih h.2 h1

theorem getFileContent_of_mem {repo : Repo} (h : (repo.map (fun f => f.path)).Nodup)
    {f : GitFile} (hf : f ∈ repo) : getFileContent repo f.path = some (fileContent f) := by
  rw [getFileContent, find?_of_nodup h hf]
  rfl

theorem file_eq_of_path_eq {repo : Repo} (h : (repo.map (fun f => f.path)).Nodup)
    {f g : GitFile} (hf : f ∈ repo) (hg : g ∈ repo) (hp : f.path = g.path) : f = g :=
  List.inj_on_of_nodup_map h hf hg hp

theorem RD_of_nodup : ∀ {l : List SearchResult}, ((l.map (fun r => r.Path)).Nodup) →
    removeDuplicateResults l = l := by
  intro l
  induction l using List.reverseRecOn with
  | nil => intro _; rfl
  | append_singleton l x ih =>
    intro h
    rw [RD_concat]
    rw [List.map_append, List.nodup_append] at h
    rw [ih h.1]
    apply insertResult_fresh
    intro e he hc
    exact h.2.2 (List.mem_map_of_mem (fun r => r.Path) he) (by simp [hc])

theorem contentHits_nodup {kw : GoStr} {repo : Repo}
    (h : (repo.map (fun f => f.path)).Nodup) :
    ((contentHits kw repo).map (fun r => r.Path)).Nodup := by
  rw [contentHits, List.map_filterMap]
  refine List.Nodup.sublist ?_ h
  apply filterMap_sublist_map
  intro f p hp
  simp only at hp
  by_cases hms : matchLinesOf kw f = []
  · rw [if_pos hms] at hp
    exact Option.noConfusion hp
  · rw [if_neg hms] at hp
    simp at hp
    exact hp.symm

theorem searchInContent_and_multi {repo : Repo} (hc : cleanRepoB repo = true)
    (kw0 k1 : GoStr) (rest : List GoStr) :
    searchInContent repo (repoGrep repo) (kw0 :: k1 :: rest) (gs "and") 0
      = (contentHits kw0 repo).filter
          (fun r =>
            match getFileContent repo r.Path with
            | none => false
            | some content =>
              (k1 :: rest).all (fun kw => goContains (goToLower content) (goToLower kw))) := by
  rw [searchInContent.eq_def]
  rw [if_neg (by simp)]
  rw [if_neg (by decide)]
  show removeDuplicateResults
      (filterResultsByAllKeywords repo
        (parseGrepOutput (repoGrep repo kw0) (gs "content") (decide ((0 : Int) > 0)))
        (k1 :: rest)) = _
  rw [show (parseGrepOutput (repoGrep repo kw0) (gs "content") (decide ((0 : Int) > 0)))
        = contentHits kw0 repo from parseGrepOutput_gitGrep hc _]
  rw [filterResultsByAllKeywords]
  exact RD_of_nodup (List.Nodup.sublist (List.Sublist.map _ (List.filter_sublist _))
    (contentHits_nodup (cleanRepoB_nodup hc)))

theorem filterPred_iff {repo : Repo} (hnd : (repo.map (fun f => f.path)).Nodup)
    {f : GitFile} (hf : f ∈ repo) (ks : List GoStr) (r : SearchResult)
    (hrp : r.Path = f.path) :
    ((match getFileContent repo r.Path with
      | none => false
      | some content => ks.all (fun kw => goContains (goToLower content) (goToLower kw))) = true)
    ↔ ∀ k ∈ ks, goContains (goToLower (fileContent f)) (goToLower k) = true := by
  rw [hrp, getFileContent_of_mem hnd hf]
  show (ks.all (fun kw => goContains (goToLower (fileContent f)) (goToLower kw)) = true) ↔ _
  exact List.all_eq_true

/-- Claim C1, corrected.  In AND mode with several keywords the code greps
only the first keyword and then filters files by the remaining keywords
against the lowercased file content: a file of a clean repository is
reported iff some line contains the first keyword (case-sensitively, as
`git grep` matches it) and the lowercased content contains the lowercase of
every remaining keyword; and the match lines reported for the file are
exactly the lines containing the FIRST keyword — not the lines containing
any of the keywords, as the specification claims. -/
theorem claim1_and_mode_first_keyword_only
    (repo : Repo) (hc : cleanRepoB repo = true) (kw0 k1 : GoStr) (rest : List GoStr)
    (f : GitFile) (hf : f ∈ repo) :
    ((∃ r ∈ searchInContent repo (repoGrep repo) (kw0 :: k1 :: rest) (gs "and") 0,
        r.Path = f.path) ↔
      ((∃ l ∈ f.lines, goContains l kw0 = true) ∧
        ∀ k ∈ k1 :: rest, goContains (goToLower (fileContent f)) (goToLower k) = true)) ∧
    ∀ r ∈ searchInContent repo (repoGrep repo) (kw0 :: k1 :: rest) (gs "and") 0,
      r.Path = f.path → r.Matches = matchLinesOf kw0 f := by
  have hnd := cleanRepoB_nodup hc
  rw [searchInContent_and_multi hc]
  constructor
  · constructor
    · rintro ⟨r, hr, hrp⟩
      have hrf := List.mem_filter.mp hr
      obtain ⟨g, hg, hms, hreq⟩ := contentHits_mem.mp hrf.1
      have hrpg : r.Path = g.path := by rw [hreq]
      have hgf : g = f := file_eq_of_path_eq hnd hg hf (by rw [← hrpg, hrp])
      subst hgf
      exact ⟨matchLinesOf_ne_nil_iff.mp hms,
        (filterPred_iff hnd hg (k1 :: rest) r hrpg).mp hrf.2⟩
    · rintro ⟨⟨l, hl, hcont⟩, hrest⟩
      have hms : matchLinesOf kw0 f ≠ [] := matchLinesOf_ne_nil_iff.mpr ⟨l, hl, hcont⟩
      refine ⟨⟨f.path, gs "content", matchLinesOf kw0 f⟩, ?_, rfl⟩
      rw [List.mem_filter]
      refine ⟨contentHits_mem.mpr ⟨f, hf, hms, rfl⟩, ?_⟩
      exact (filterPred_iff hnd hf (k1 :: rest) ⟨f.path, gs "content", matchLinesOf kw0 f⟩
        rfl).mpr hrest
  · intro r hr hrp
    have hrf := List.mem_filter.mp hr
    obtain ⟨g, hg, hms, hreq⟩ := contentHits_mem.mp hrf.1
    have hrpg : r.Path = g.path := by rw [hreq]
    have hgf : g = f := file_eq_of_path_eq hnd hg hf (by rw [← hrpg, hrp])
    subst hgf
    rw [hreq]

/-- Counterexample to claim C1 as stated: with keywords `alpha`, `beta` over
a file whose line 1 contains both keywords and whose line 2 contains only
`beta`, the AND search reports only line 1 (the first keyword's matches),
although line 2 contains one of the keywords. -/
theorem claim1_counterexample :
    searchInContent repoC1 (repoGrep repoC1) [gs "alpha", gs "beta"] (gs "and") 0
      = [⟨gs "a.txt", gs "content", [⟨1, gs "alpha beta", []⟩]⟩] ∧
    goContains (gs "beta") (gs "beta") = true := by decide

/-- Witness for the corrected claim C1 at a concrete clean repository. -/
theorem claim1_witness :
    ∃ r ∈ searchInContent repoC1 (repoGrep repoC1) [gs "alpha", gs "beta"] (gs "and") 0,
      r.Path = gs "a.txt" := by
  have h := claim1_and_mode_first_keyword_only repoC1 (by decide) (gs "alpha") (gs "beta") []
    ⟨gs "a.txt", [gs "alpha beta", gs "beta"]⟩ (by decide)
  exact h.1.mpr (by decide)

theorem searchInContent_or {repo : Repo} (hc : cleanRepoB repo = true) (kws : List GoStr)
    (hk : kws ≠ []) :
    searchInContent repo (repoGrep repo) kws (gs "or") 0
      = removeDuplicateResults ((kws.map (fun kw => contentHits kw repo)).flatten) := by
  rw [searchInContent.eq_def]
  rw [if_neg hk, if_pos rfl]
  congr 1
  congr 1
  apply List.map_congr_left
  intro kw _
  exact parseGrepOutput_gitGrep hc _

theorem contentHits_types {kw : GoStr} {repo : Repo} :
    ∀ x ∈ contentHits kw repo, x.MatchType = gs "content" := by
  intro x hx
  obtain ⟨f, _, _, hxeq⟩ := contentHits_mem.mp hx
  rw [hxeq]

theorem pathEntries_flatten (p : GoStr) (L : List (List SearchResult)) :
    pathEntries p L.flatten = (L.map (pathEntries p)).flatten := by
  induction L with
  | nil => simp [pathEntries]
  | cons A L' ih =>
    rw [List.flatten_cons, pathEntries_append, List.map_cons, List.flatten_cons, ih]

theorem pathEntries_contentHits {kw : GoStr} {repo : Repo}
    (hnd : (repo.map (fun f => f.path)).Nodup) {f : GitFile} (hf : f ∈ repo) :
    pathEntries f.path (contentHits kw repo)
      = if matchLinesOf kw f = [] then []
        else [⟨f.path, gs "content", matchLinesOf kw f⟩] := by
  by_cases hms : matchLinesOf kw f = []
  · rw [if_pos hms]
    apply pathEntries_nil_of_not_mem
    intro hmem
    obtain ⟨r, hr, hrp⟩ := List.mem_map.mp hmem
    obtain ⟨g, hg, hms2, hreq⟩ := contentHits_mem.mp hr
    have hgf : g = f := file_eq_of_path_eq hnd hg hf (by rw [← hrp, hreq])
    exact hms2 (hgf ▸ hms)
  · rw [if_neg hms]
    exact pathEntries_of_nodup (contentHits_nodup hnd)
      (contentHits_mem.mpr ⟨f, hf, hms, rfl⟩)

theorem matches_union {repo : Repo} (hnd : (repo.map (fun f => f.path)).Nodup)
    {f : GitFile} (hf : f ∈ repo) :
    ∀ (kws : List GoStr),
      ((pathEntries f.path ((kws.map (fun kw => contentHits kw repo)).flatten)).map
        (fun x => x.Matches)).flatten
      = (kws.map (fun kw => matchLinesOf kw f)).flatten := by
  intro kws
  induction kws with
  | nil => simp [pathEntries]
  | cons kw kws' ih =>
    rw [List.map_cons, List.flatten_cons, pathEntries_append, List.map_append,
      List.flatten_append, ih, List.map_cons, List.flatten_cons]
    congr 1
    rw [pathEntries_contentHits hnd hf]
    by_cases hms : matchLinesOf kw f = []
    · rw [if_pos hms, hms]
      simp
    · rw [if_neg hms]
      simp

/-- Claim C5, corrected.  In OR mode a file is reported iff some keyword
occurs in its content (as `git grep` finds it, case-sensitively), but the
reported match lines are the CONCATENATION over the keywords of each
keyword's matching lines: a line containing several keywords is recorded
once per keyword, so the merged list is not duplicate-free, contrary to the
specification's claim. -/
theorem claim5_or_mode_concatenation
    (repo : Repo) (hc : cleanRepoB repo = true) (kws : List GoStr) (hk : kws ≠ [])
    (f : GitFile) (hf : f ∈ repo) :
    ((∃ r ∈ searchInContent repo (repoGrep repo) kws (gs "or") 0, r.Path = f.path) ↔
      ∃ kw ∈ kws, ∃ l ∈ f.lines, goContains l kw = true) ∧
    ∀ r ∈ searchInContent repo (repoGrep repo) kws (gs "or") 0,
      r.Path = f.path → r.Matches = (kws.map (fun kw => matchLinesOf kw f)).flatten := by
  have hnd := cleanRepoB_nodup hc
  rw [searchInContent_or hc kws hk]
  constructor
  · constructor
    · rintro ⟨r, hr, hrp⟩
      have hmem : f.path ∈ ((kws.map (fun kw => contentHits kw repo)).flatten).map
          (fun r => r.Path) :=
        (RD_mem _ f.path).mp (hrp ▸ List.mem_map_of_mem (fun r => r.Path) hr)
      obtain ⟨r', hr', hrp'⟩ := List.mem_map.mp hmem
      obtain ⟨sub, hsub, hrs⟩ := List.mem_flatten.mp hr'
      obtain ⟨kw, hkw, hkws⟩ := List.mem_map.mp hsub
      obtain ⟨g, hg, hms, hreq⟩ := contentHits_mem.mp (hkws ▸ hrs)
      have hgf : g = f := file_eq_of_path_eq hnd hg hf (by rw [← hrp', hreq])
      subst hgf
      obtain ⟨l, hl, hcont⟩ := matchLinesOf_ne_nil_iff.mp hms
      exact ⟨kw, hkw, l, hl, hcont⟩
    · rintro ⟨kw, hkw, l, hl, hcont⟩
      have hms := matchLinesOf_ne_nil_iff.mpr ⟨l, hl, hcont⟩
      have hrmem : (⟨f.path, gs "content", matchLinesOf kw f⟩ : SearchResult)
          ∈ (kws.map (fun kw => contentHits kw repo)).flatten :=
        List.mem_flatten.mpr ⟨contentHits kw repo,
          List.mem_map_of_mem (fun kw => contentHits kw repo) hkw,
          contentHits_mem.mpr ⟨f, hf, hms, rfl⟩⟩
      have hp : f.path ∈ ((kws.map (fun kw => contentHits kw repo)).flatten).map
          (fun r => r.Path) := List.mem_map_of_mem (fun r => r.Path) hrmem
      obtain ⟨r, hr, hrp⟩ := List.mem_map.mp ((RD_mem _ f.path).mpr hp)
      exact ⟨r, hr, hrp⟩
  · intro r hr hrp
    have htypes : ∀ x ∈ (kws.map (fun kw => contentHits kw repo)).flatten,
        x.MatchType = gs "content" := by
      intro x hx
      obtain ⟨sub, hsub, hxs⟩ := List.mem_flatten.mp hx
      obtain ⟨kw, _, hkws⟩ := List.mem_map.mp hsub
      exact contentHits_types x (hkws ▸ hxs)
    have hm := (RD_same_type htypes r hr).2
    rw [hm, hrp, matches_union hnd hf kws]

/-- Counterexample to claim C5 as stated: with keywords `x` and `y` over a
file whose single line contains both, the OR search records line 1 twice —
once per keyword — in the same file's match list. -/
theorem claim5_counterexample :
    searchInContent repoC5 (repoGrep repoC5) [gs "x", gs "y"] (gs "or") 0
      = [⟨gs "a.txt", gs "content", [⟨1, gs "x y", []⟩, ⟨1, gs "x y", []⟩]⟩] := by decide

/-- Witness for the corrected claim C5 at a concrete clean repository. -/
theorem claim5_witness :
    ∃ r ∈ searchInContent repoC5 (repoGrep repoC5) [gs "x", gs "y"] (gs "or") 0,
      r.Path = gs "a.txt" := by
  have h := claim5_or_mode_concatenation repoC5 (by decide) [gs "x", gs "y"] (by decide)
    ⟨gs "a.txt", [gs "x y"]⟩ (by decide)
  exact h.1.mpr (by decide)

theorem applyLimit_sublist (m : Int) (l : List SearchResult) :
    List.Sublist (applyLimit m l) l := by
  rw [applyLimit]
  split
  · exact List.take_sublist _ _
  · exact List.Sublist.refl l

theorem mergeMatchType_content_filename :
    mergeMatchType (gs "content") (gs "filename") = gs "both" := by decide

/-- Claim C3, confirmed.  In every final result list of
`SearchFilesEnhanced` with filename search enabled, each path appears at
most once; and every final result whose path has both a content hit and a
filename hit is the merge of the two: match type `both` and the content
entry's match lines followed by the filename entry's synthetic line. -/
theorem claim3_merge_and_dedup
    (repo : Repo) (grep : GoStr → GoStr) (kws : List GoStr) (mode : GoStr)
    (ctx maxr : Int)
    (hnd : (repo.map (fun f => goTrimSpace f.path)).Nodup) :
    (((SearchFilesEnhanced repo grep kws mode true ctx maxr).map (fun r => r.Path)).Nodup) ∧
    ∀ r ∈ SearchFilesEnhanced repo grep kws mode true ctx maxr,
      r.Path ∈ (searchInContent repo grep kws mode ctx).map (fun x => x.Path) →
      r.Path ∈ (searchInFilenames repo kws mode).map (fun x => x.Path) →
      r.MatchType = gs "both" ∧
      ∃ c ∈ searchInContent repo grep kws mode ctx, ∃ fr ∈ searchInFilenames repo kws mode,
        c.Path = r.Path ∧ fr.Path = r.Path ∧ r.Matches = c.Matches ++ fr.Matches := by
  by_cases hkw : kws = []
  · constructor
    · rw [SearchFilesEnhanced, if_pos hkw]
      simp
    · intro r hr
      rw [SearchFilesEnhanced, if_pos hkw] at hr
      simp at hr
  · have hA := searchInContent_nodup repo grep kws mode ctx
    have hB := searchInFilenames_nodup repo kws mode hnd
    have hfin : SearchFilesEnhanced repo grep kws mode true ctx maxr
        = applyLimit maxr (removeDuplicateResults
            (searchInContent repo grep kws mode ctx ++ searchInFilenames repo kws mode)) := by
      rw [SearchFilesEnhanced, if_neg hkw, searchUnique, if_pos rfl]
    constructor
    · rw [hfin]
      exact List.Nodup.sublist (List.Sublist.map _ (applyLimit_sublist _ _)) (RD_nodup _)
    · intro r hr hrA hrB
      rw [hfin] at hr
      have hr2 : r ∈ removeDuplicateResults
          (searchInContent repo grep kws mode ctx ++ searchInFilenames repo kws mode) :=
        (applyLimit_sublist _ _).subset hr
      obtain ⟨g, gp, hge, hgm⟩ := RD_entry _ r hr2
      obtain ⟨a, haA, hap⟩ := List.mem_map.mp hrA
      obtain ⟨b, hbB, hbp⟩ := List.mem_map.mp hrB
      have hPEA : pathEntries r.Path (searchInContent repo grep kws mode ctx) = [a] := by
        rw [← hap]
        exact pathEntries_of_nodup hA haA
      have hPEB : pathEntries r.Path (searchInFilenames repo kws mode) = [b] := by
        rw [← hbp]
        exact pathEntries_of_nodup hB hbB
      have hPE : pathEntries r.Path
          (searchInContent repo grep kws mode ctx ++ searchInFilenames repo kws mode)
          = [a, b] := by
        rw [pathEntries_append, hPEA, hPEB]
        rfl
      rw [hPE] at hge
      injection hge with hg1 hg2
      have hr_eq : r = ⟨a.Path, mergeMatchType a.MatchType b.MatchType,
          a.Matches ++ b.Matches⟩ := by
        rw [hgm, ← hg1, ← hg2]
        rfl
      refine ⟨?_, a, haA, b, hbB, hap, hbp, by rw [hr_eq]⟩
      rw [hr_eq]
      show mergeMatchType a.MatchType b.MatchType = gs "both"
      rw [searchInContent_types repo grep kws mode ctx a haA,
        searchInFilenames_types repo kws mode b hbB]
      exact mergeMatchType_content_filename

/-- Witness for claim C3 at a concrete repository whose file `main.go`
matches both by content and by filename. -/
theorem claim3_witness :
    ((SearchFilesEnhanced repoC3 (repoGrep repoC3) [gs "main"] (gs "and") true 0 10).map
      (fun r => r.Path)).Nodup ∧
    (SearchFilesEnhanced repoC3 (repoGrep repoC3) [gs "main"] (gs "and") true 0 10).map
      (fun r => r.MatchType) = [gs "both"] := by
  constructor
  · exact (claim3_merge_and_dedup repoC3 (repoGrep repoC3) [gs "main"] (gs "and") 0 10
      (by decide)).1
  · decide

/-- Claim C2, corrected.  `parseGrepOutput` ignores its `hasContext` flag
entirely, and its result never carries context lines: every emitted
`MatchLine` has an empty `Context` field.  Context lines requested from
`git grep -C` are therefore dropped, not attached as auxiliary text. -/
theorem claim2_context_never_attached (output mt : GoStr) (hc : Bool) :
    parseGrepOutput output mt hc = parseGrepOutput output mt false ∧
    ∀ r ∈ parseGrepOutput output mt hc, ∀ m ∈ r.Matches, m.Context = [] := by
  refine ⟨rfl, ?_⟩
  rw [parseGrepOutput]
  by_cases ho : output = []
  · rw [if_pos ho]
    intro r hr
    simp at hr
  · rw [if_neg ho]
    exact foldl_parse_context mt _ [] (by intro r hr; simp at hr)

/-- Counterexample to claim C2 as stated: the spec scenario — `x.txt` with
the keyword on line 3 and `contextLines = 1`.  `git grep -n -C 1` prints
the surrounding lines with `-` separators; the parser discards them and
the single reported match for line 3 carries no context text at all. -/
theorem claim2_counterexample :
    parseGrepOutput
      (gs "x.txt-2-line two\nx.txt:3:has keyword\nx.txt-4-line four")
      (gs "content") true
      = [⟨gs "x.txt", gs "content", [⟨3, gs "has keyword", []⟩]⟩] := by
  decide

/-- Claim C4, corrected.  With a positive limit the returned list has
length at most the limit.  (No `truncated` flag exists: truncation is a
silent post-hoc slice `uniqueResults[:maxResults]`, see the
counterexample.) -/
theorem claim4_length_le_limit
    (repo : Repo) (grep : GoStr → GoStr) (kws : List GoStr) (mode : GoStr)
    (incl : Bool) (ctx maxr : Int) (h : 0 < maxr) :
    (SearchFilesEnhanced repo grep kws mode incl ctx maxr).length ≤ maxr.toNat := by
  rw [SearchFilesEnhanced]
  split
  · simp
  · by_cases hc : maxr > 0 ∧ ((searchUnique repo grep kws mode incl ctx).length : Int) > maxr
    · rw [applyLimit, if_pos hc]
      simp
    · rw [applyLimit, if_neg hc]
      rw [not_and_or] at hc
      rcases hc with hc | hc
      · exact absurd h hc
      · omega

/-- Witness for claim C4 at a concrete two-file repository and limit 1. -/
theorem claim4_witness :
    (SearchFilesEnhanced repoC4a (repoGrep repoC4a) [gs "kw"] (gs "and") false 0 1).length
      ≤ (1 : Int).toNat :=
  claim4_length_le_limit repoC4a (repoGrep repoC4a) [gs "kw"] (gs "and") false 0 1 (by decide)

/-- Counterexample to claim C4 as stated: a two-file repository (both files
match, untruncated count 2) and a one-file repository (untruncated count 1)
produce byte-identical return values under limit 1.  `SearchFilesEnhanced`
returns only the result slice and a nil error, so no `truncated = true`
flag is, or can be, signaled to the caller. -/
theorem claim4_counterexample :
    SearchFilesEnhanced repoC4a (repoGrep repoC4a) [gs "kw"] (gs "and") false 0 1
      = SearchFilesEnhanced repoC4b (repoGrep repoC4b) [gs "kw"] (gs "and") false 0 1 ∧
    (searchUnique repoC4a (repoGrep repoC4a) [gs "kw"] (gs "and") false 0).length = 2 ∧
    (searchUnique repoC4b (repoGrep repoC4b) [gs "kw"] (gs "and") false 0).length = 1 := by
  decide

/-- Claim C8, confirmed.  `handleSearchFiles` rejects an empty keyword
list with a single terminal error result, and the rejection is independent
of the underlying search: no traversal's outcome can influence it, so the
request never completes as an empty success. -/
theorem claim8_empty_keywords_rejected (run run2 : Unit → List SearchResult) :
    handleSearchFiles run []
      = ToolResult.toolError (gs "Error: at least one keyword is required") ∧
    handleSearchFiles run [] = handleSearchFiles run2 [] :=
  ⟨rfl, rfl⟩

/-- Claim C6, corrected.  The result list's ordering comes from iterating a
Go map, which is unspecified, so identical calls need not return identical
ordered lists (see the counterexample).  What does hold: when the limit is
inactive, any two outcomes of identical calls against the same repository
are permutations of each other — the result multiset is deterministic. -/
theorem claim6_multiset_deterministic
    (repo : Repo) (grep : GoStr → GoStr) (kws : List GoStr) (mode : GoStr)
    (incl : Bool) (ctx maxr : Int) (out1 out2 : List SearchResult)
    (hm : maxr ≤ 0)
    (h1 : searchOutcome repo grep kws mode incl ctx maxr out1)
    (h2 : searchOutcome repo grep kws mode incl ctx maxr out2) :
    out1.Perm out2 := by
  obtain ⟨l1, hp1, he1⟩ := h1
  obtain ⟨l2, hp2, he2⟩ := h2
  by_cases hk : kws = []
  · rw [he1, he2]
    simp only [if_pos hk]
    exact List.Perm.refl _
  · rw [he1, he2]
    simp only [if_neg hk]
    have ha1 : applyLimit maxr l1 = l1 := by
      rw [applyLimit, if_neg]
      rintro ⟨h, _⟩
      omega
    have ha2 : applyLimit maxr l2 = l2 := by
      rw [applyLimit, if_neg]
      rintro ⟨h, _⟩
      omega
    rw [ha1, ha2]
    exact hp1.trans hp2.symm

/-- Counterexample to claim C6 as stated: on a two-file repository the same
call admits both orderings of the two deduplicated results as outcomes,
and the two orderings are distinct lists. -/
theorem claim6_counterexample :
    searchOutcome repoC6 (repoGrep repoC6) [gs "kw"] (gs "and") false 0 10 [resC6a, resC6b] ∧
    searchOutcome repoC6 (repoGrep repoC6) [gs "kw"] (gs "and") false 0 10 [resC6b, resC6a] ∧
    ([resC6a, resC6b] : List SearchResult) ≠ [resC6b, resC6a] :=
  ⟨⟨[resC6a, resC6b], by decide, by decide⟩,
   ⟨[resC6b, resC6a], by decide, by decide⟩, by decide⟩

/-- Witness for claim C6 at a concrete repository and two concrete
outcomes of the same call with the limit disabled. -/
theorem claim6_witness :
    ([resC6a, resC6b] : List SearchResult).Perm [resC6b, resC6a] :=
  claim6_multiset_deterministic repoC6 (repoGrep repoC6) [gs "kw"] (gs "and") false 0 0
    [resC6a, resC6b] [resC6b, resC6a] (by decide)
    ⟨[resC6a, resC6b], by decide, by decide⟩
    ⟨[resC6b, resC6a], by decide, by decide⟩

/-- Claim C10, confirmed.  `filterResultsByAllKeywords` keeps a candidate
iff the file's content, lowercased, contains the lowercase of every
supplied keyword (unreadable files are dropped); and in AND-mode
multi-keyword search the first keyword is case-sensitive via the grep pass
while the rest are case-insensitive: over a file containing `Alpha beta`,
searching `[alpha, beta]` reports nothing but `[Alpha, BETA]` succeeds. -/
theorem claim10_case_asymmetric_and_filter
    (repo : Repo) (results : List SearchResult) (ks : List GoStr) (r : SearchResult) :
    (r ∈ filterResultsByAllKeywords repo results ks ↔
      r ∈ results ∧ ∃ content, getFileContent repo r.Path = some content ∧
        ∀ k ∈ ks, goContains (goToLower content) (goToLower k) = true) ∧
    searchInContent repoC10 (repoGrep repoC10) [gs "alpha", gs "beta"] (gs "and") 0 = [] ∧
    searchInContent repoC10 (repoGrep repoC10) [gs "Alpha", gs "BETA"] (gs "and") 0
      = [⟨gs "c.txt", gs "content", [⟨1, gs "Alpha beta", []⟩]⟩] := by
  refine ⟨?_, by decide, by decide⟩
  rw [filterResultsByAllKeywords, List.mem_filter]
  constructor
  · rintro ⟨hm, hp⟩
    refine ⟨hm, ?_⟩
    cases hg : getFileContent repo r.Path with
    | none =>
      rw [hg] at hp
      exact Bool.noConfusion hp
    | some content =>
      rw [hg] at hp
      exact ⟨content, rfl, List.all_eq_true.mp hp⟩
  · rintro ⟨hm, content, hg, hall⟩
    refine ⟨hm, ?_⟩
    rw [hg]
    exact List.all_eq_true.mpr hall

theorem literalPat_unpack {p : GoStr} (h : literalPat p = true) :
    '*' ∉ p ∧ '?' ∉ p ∧ '[' ∉ p ∧ '\\' ∉ p := by
  simpa [literalPat] using h

theorem literalPat_tail {c : Char} {p : GoStr} (h : literalPat (c :: p) = true) :
    literalPat p = true := by
  obtain ⟨h1, h2, h3, h4⟩ := literalPat_unpack h
  simp only [literalPat, decide_eq_true_eq]
  exact ⟨fun hm => h1 (by simp [hm]), fun hm => h2 (by simp [hm]),
    fun hm => h3 (by simp [hm]), fun hm => h4 (by simp [hm])⟩

theorem literalPat_append {a b : GoStr} (ha : literalPat a = true)
    (hb : literalPat b = true) : literalPat (a ++ b) = true := by
  obtain ⟨a1, a2, a3, a4⟩ := literalPat_unpack ha
  obtain ⟨b1, b2, b3, b4⟩ := literalPat_unpack hb
  simp only [literalPat, decide_eq_true_eq, List.mem_append]
  exact ⟨fun hm => hm.elim a1 b1, fun hm => hm.elim a2 b2,
    fun hm => hm.elim a3 b3, fun hm => hm.elim a4 b4⟩

theorem filepathMatchAux_cons_step (f : Nat) (c : Char) (pr s : GoStr) :
    filepathMatchAux (f + 1) (c :: pr) s
      = (if c = '*' then
          filepathMatchAux f pr s ||
            (match s with
             | [] => false
             | d :: sr => d ≠ '/' && filepathMatchAux f ('*' :: pr) sr)
        else if c = '?' then
          (match s with
           | [] => false
           | d :: sr => d ≠ '/' && filepathMatchAux f pr sr)
        else if c = '[' then
          (match s with
           | [] => false
           | d :: sr =>
             match classMatch d pr with
             | none => false
             | some (ok, rest) => ok && filepathMatchAux f rest sr)
        else if c = '\\' then
          (match pr with
           | [] => false
           | e :: pr2 =>
             match s with
             | [] => false
             | d :: sr => d == e && filepathMatchAux f pr2 sr)
        else
          (match s with
           | [] => false
           | d :: sr => d == c && filepathMatchAux f pr sr)) := rfl

theorem filepathMatchAux_literal :
    ∀ (p : GoStr) (fuel : Nat) (s : GoStr), literalPat p = true → p.length < fuel →
      filepathMatchAux fuel p s = (s == p) := by
  intro p
  induction p with
  | nil =>
    intro fuel s _ hf
    cases fuel with
    | zero => omega
    | succ f =>
      rw [filepathMatchAux]
      cases s with
      | nil => rfl
      | cons d sr => rfl
  | cons c pr ih =>
    intro fuel s hlit hf
    obtain ⟨h1, h2, h3, h4⟩ := literalPat_unpack hlit
    cases fuel with
    | zero => omega
    | succ f =>
      rw [filepathMatchAux_cons_step]
      rw [if_neg (show ¬ c = '*' from fun hc => h1 (by simp [hc])),
        if_neg (show ¬ c = '?' from fun hc => h2 (by simp [hc])),
        if_neg (show ¬ c = '[' from fun hc => h3 (by simp [hc])),
        if_neg (show ¬ c = '\\' from fun hc => h4 (by simp [hc]))]
      cases s with
      | nil => rfl
      | cons d sr =>
        show (d == c && filepathMatchAux f pr sr) = (d :: sr == c :: pr)
        rw [ih f sr (literalPat_tail hlit) (by simp at hf; omega)]
        rfl

theorem filepathMatch_literal (p s : GoStr) (h : literalPat p = true) :
    filepathMatch p s = (s == p) := by
  rw [filepathMatch]
  exact filepathMatchAux_literal p _ s h (by omega)

theorem filepathBase_elem (p : GoStr) :
    filepathBase p = gs "." ∨ filepathBase p = gs "/" ∨ '/' ∉ filepathBase p := by
  by_cases hp : p = []
  · rw [filepathBase, if_pos hp]
    exact Or.inl rfl
  · have hstep : filepathBase p
        = (if ((((p.reverse.dropWhile (· == '/')).reverse).reverse.takeWhile (· ≠ '/')).reverse) = []
           then gs "/"
           else ((((p.reverse.dropWhile (· == '/')).reverse).reverse.takeWhile (· ≠ '/')).reverse)) := by
      rw [filepathBase, if_neg hp]
    rw [hstep]
    by_cases hq : ((((p.reverse.dropWhile (· == '/')).reverse).reverse.takeWhile (· ≠ '/')).reverse) = []
    · rw [if_pos hq]
      exact Or.inr (Or.inl rfl)
    · rw [if_neg hq]
      refine Or.inr (Or.inr ?_)
      intro hmem
      rw [List.mem_reverse] at hmem
      have := List.mem_takeWhile_imp hmem
      simp at this

theorem matchesPatternFuel_false_step (f : Nat) (filePath pattern : GoStr) :
    matchesPatternFuel (f + 1) false filePath pattern
      = (if goSuffixed pattern ['/'] &&
            (let dirPattern := goTrimEnd pattern ['/']
             filePath == dirPattern || goPrefixed filePath (dirPattern ++ ['/'])) then
          true
        else if goContains pattern (gs "**") then
          matchesPatternFuel f true filePath pattern
        else if filepathMatch pattern (filepathBase filePath) then true
        else if filepathMatch pattern filePath then true
        else if goContains pattern ['/'] then
          (List.range (goSplit filePath ['/']).length).any
            (fun i =>
              filepathMatch pattern (List.intercalate ['/'] ((goSplit filePath ['/']).take (i + 1))))
        else false) := rfl

theorem matchesPatternFuel_true_step (f : Nat) (filePath pattern : GoStr) :
    matchesPatternFuel (f + 1) true filePath pattern
      = (if goPrefixed pattern (gs "**/") && goSuffixed pattern (gs "/**") then
          let middle := goTrimEnd (goTrimStart pattern (gs "**/")) (gs "/**")
          (goSplit filePath ['/']).any (fun part => part == middle)
        else if goPrefixed pattern (gs "**/") then
          let rest := goTrimStart pattern (gs "**/")
          matchesPatternFuel f false filePath rest ||
            (List.range (goSplit filePath ['/']).length).any
              (fun i =>
                matchesPatternFuel f false
                  (List.intercalate ['/'] ((goSplit filePath ['/']).drop i)) rest)
        else
          match goSplit pattern (gs "**") with
          | [p0, p1] =>
            let prefixPart := goTrimEnd p0 ['/']
            let suffixPart := goTrimStart p1 ['/']
            if prefixPart ≠ [] &&
                !(filePath == prefixPart || goPrefixed filePath (prefixPart ++ ['/'])) then
              false
            else if suffixPart ≠ [] then
              if goContains suffixPart ['*'] && !goContains suffixPart (gs "**") then
                let remaining :=
                  if prefixPart ≠ [] then goTrimStart (goTrimStart filePath prefixPart) ['/']
                  else filePath
                if filepathMatch suffixPart (filepathBase remaining) then true
                else
                  (List.range (goSplit remaining ['/']).length).any
                    (fun i =>
                      filepathMatch suffixPart
                        (List.intercalate ['/'] ((goSplit remaining ['/']).drop i)))
              else
                goSuffixed filePath suffixPart || goContains filePath (suffixPart ++ ['/'])
            else true
          | _ => false) := rfl

theorem matchesPattern_dir_accept (X f : GoStr)
    (h : (f == X || goPrefixed f (X ++ ['/'])) = true) :
    matchesPattern f (X ++ ['/']) = true := by
  rw [matchesPattern]
  rw [show (X ++ ['/']).length + 2 = (X.length + 2) + 1 by simp]
  rw [matchesPatternFuel_false_step]
  simp only [goSuffixed_append_self, goTrimEnd_append, Bool.true_and, h, if_true]

theorem matchesPattern_dir_eval (X p : GoStr) (hX : X ≠ []) (hsl : '/' ∉ X)
    (hlit : literalPat X = true) :
    matchesPattern p (X ++ ['/']) = (p == X || goPrefixed p (X ++ ['/'])) := by
  by_cases hrhs : (p == X || goPrefixed p (X ++ ['/'])) = true
  · rw [matchesPattern_dir_accept X p hrhs, hrhs]
  · have hstar : '*' ∉ X := (literalPat_unpack hlit).1
    have hrhsf : (p == X || goPrefixed p (X ++ ['/'])) = false := by
      revert hrhs
      cases (p == X || goPrefixed p (X ++ ['/'])) <;> simp
    have hlit2 : literalPat (X ++ ['/']) = true := literalPat_append hlit (by decide)
    rw [matchesPattern, show (X ++ ['/']).length + 2 = (X.length + 2) + 1 by simp,
      matchesPatternFuel_false_step]
    simp only [goSuffixed_append_self, goTrimEnd_append, Bool.true_and, hrhsf,
      Bool.false_eq_true, if_false]
    have hc2 : goContains (X ++ ['/']) (gs "**") = false := by
      by_contra hb
      rw [Bool.not_eq_false] at hb
      have hm := goContains_mem hb '*' (by simp [gs])
      rcases List.mem_append.mp hm with hm1 | hm1
      · exact hstar hm1
      · simp at hm1
    have hc3 : filepathMatch (X ++ ['/']) (filepathBase p) = false := by
      rw [filepathMatch_literal _ _ hlit2]
      by_contra hb
      rw [Bool.not_eq_false, beq_iff_eq] at hb
      rcases filepathBase_elem p with h1 | h1 | h1
      · rw [h1] at hb
        have hlast := congrArg List.getLast? hb
        simp [gs] at hlast
      · rw [h1] at hb
        cases X with
        | nil => exact hX rfl
        | cons a as =>
          rw [show gs "/" = ['/'] from rfl] at hb
          have hlen := congrArg List.length hb
          simp only [List.length_cons, List.length_append, List.length_nil] at hlen
          omega
      · exact h1 (by rw [hb]; simp)
    have hc4 : filepathMatch (X ++ ['/']) p = false := by
      rw [filepathMatch_literal _ _ hlit2]
      by_contra hb
      rw [Bool.not_eq_false, beq_iff_eq] at hb
      have hpre : goPrefixed p (X ++ ['/']) = true :=
        goPrefixed_iff.mpr (by rw [hb])
      rw [hpre] at hrhsf
      simp at hrhsf
    have hc5 : goContains (X ++ ['/']) ['/'] = true :=
      goContains_iff.mpr ⟨X, [], by simp⟩
    simp only [hc2, hc3, hc4, hc5, Bool.false_eq_true, if_false, if_true]
    rw [List.any_eq_false]
    intro i _
    rw [filepathMatch_literal _ _ hlit2]
    by_contra hb
    rw [beq_iff_eq] at hb
    have hpre : (X ++ ['/']) <+: p := by
      rw [← hb]
      exact sub_split_isPre '/' p (i + 1)
    rw [goPrefixed_iff.mpr hpre] at hrhsf
    simp at hrhsf

theorem matchesPatternFuel_rec_prefix (f : Nat) (X p : GoStr)
    (hX : X ≠ []) (hstar : '*' ∉ X) :
    matchesPatternFuel (f + 1) true p (X ++ gs "/**")
      = (p == X || goPrefixed p (X ++ ['/'])) := by
  have hnp : goPrefixed (X ++ gs "/**") (gs "**/") = false := by
    cases X with
    | nil => exact absurd rfl hX
    | cons a as =>
      by_contra hb
      rw [Bool.not_eq_false] at hb
      obtain ⟨t, ht⟩ := goPrefixed_iff.mp hb
      have hhd := congrArg List.head? ht
      simp [gs] at hhd
      exact hstar (by rw [← hhd]; simp)
  rw [matchesPatternFuel_true_step, hnp]
  simp only [Bool.false_and, Bool.false_eq_true, if_false]
  rw [goSplit_recursive hstar]
  have hts : goTrimStart ([] : GoStr) ['/'] = [] := rfl
  simp only [goTrimEnd_append, hts, ne_eq, not_true_eq_false, not_false_eq_true]
  by_cases hrhs : (p == X || goPrefixed p (X ++ ['/'])) = true
  · rw [hrhs]
    simp [hX]
  · have hrhsf : (p == X || goPrefixed p (X ++ ['/'])) = false := by
      revert hrhs
      cases (p == X || goPrefixed p (X ++ ['/'])) <;> simp
    rw [hrhsf]
    simp [hX]

theorem matchesPattern_recursive_eval (X p : GoStr) (hX : X ≠ []) (hstar : '*' ∉ X) :
    matchesPattern p (X ++ gs "/**") = (p == X || goPrefixed p (X ++ ['/'])) := by
  rw [matchesPattern]
  rw [show (X ++ gs "/**").length + 2 = (X.length + 4) + 1 by simp [gs]]
  rw [matchesPatternFuel_false_step]
  have h1 : goSuffixed (X ++ gs "/**") ['/'] = false := by
    rw [show X ++ gs "/**" = (X ++ ['/', '*']) ++ ['*'] by simp [gs]]
    exact goSuffixed_snoc_ne (by decide) _
  have h2 : goContains (X ++ gs "/**") (gs "**") = true :=
    goContains_iff.mpr ⟨X ++ ['/'], [], by simp [gs]⟩
  rw [h1, h2]
  simp only [Bool.false_and, Bool.false_eq_true, if_false, if_true]
  rw [show X.length + 4 = (X.length + 3) + 1 from rfl]
  exact matchesPatternFuel_rec_prefix (X.length + 3) X p hX hstar

/-- Claim C7, corrected.  For a plain directory name `X` (non-empty, no
separator, no glob metacharacters), both the directory pattern `X/` and the
recursive pattern `X/**` are exact-segment anchored: they accept a path iff
it equals `X` or is a segment-bounded descendant of `X`, so `vendor/` and
`vendor/**` reject `vendor2/x`.  The restriction to glob-free `X` is
necessary: a glob-containing pattern ending in `/` can accept paths that
are not descendants of its trimmed form (see the counterexample). -/
theorem claim7_exact_segment_anchoring (X p : GoStr) (hX : X ≠ [])
    (hsl : '/' ∉ X) (hlit : literalPat X = true) :
    matchesPattern p (X ++ ['/']) = (p == X || goPrefixed p (X ++ ['/'])) ∧
    matchesPattern p (X ++ gs "/**") = (p == X || goPrefixed p (X ++ ['/'])) :=
  ⟨matchesPattern_dir_eval X p hX hsl hlit,
    matchesPattern_recursive_eval X p hX (literalPat_unpack hlit).1⟩

/-- Witness for claim C7: `vendor/` and `vendor/**` both reject the
trailing-character collision `vendor2/x`. -/
theorem claim7_witness :
    matchesPattern (gs "vendor2/x") (gs "vendor" ++ ['/'])
        = ((gs "vendor2/x" : GoStr) == gs "vendor"
            || goPrefixed (gs "vendor2/x") (gs "vendor" ++ ['/'])) ∧
    matchesPattern (gs "vendor2/x") (gs "vendor" ++ gs "/**")
        = ((gs "vendor2/x" : GoStr) == gs "vendor"
            || goPrefixed (gs "vendor2/x") (gs "vendor" ++ ['/'])) :=
  claim7_exact_segment_anchoring (gs "vendor") (gs "vendor2/x")
    (by decide) (by decide) (by decide)

/-- Counterexample to claim C7 as stated for arbitrary patterns ending in
`/`: the glob pattern `vendor/**/` ends in `/`, yet it accepts `vendor/x`,
which neither equals its trimmed form `vendor/**` nor is a segment-bounded
descendant of it. -/
theorem claim7_counterexample :
    goSuffixed (gs "vendor/**/") ['/'] = true ∧
    matchesPattern (gs "vendor/x") (gs "vendor/**/") = true ∧
    goTrimEnd (gs "vendor/**/") ['/'] = gs "vendor/**" ∧
    ((gs "vendor/x" : GoStr) == gs "vendor/**"
      || goPrefixed (gs "vendor/x") (gs "vendor/**" ++ ['/'])) = false := by
  decide

/-- Claim C9, corrected.  Pruning agrees with per-file filtering for the
directory-shaped exclude patterns `X/` and (glob-free, non-empty `X`)
`X/**`: when such a pattern prunes a directory `d`, every file strictly
beneath `d` is excluded by per-file filtering as well.  The claim fails
for bare-name excludes (see the counterexample): `vendor` prunes the
directory `vendor` but keeps `vendor/foo.go` under per-file filtering. -/
theorem claim9_pruning_consistent_for_dir_patterns
    (I E : List GoStr) (d f X : GoStr) (hX : X ≠ []) (hstar : '*' ∉ X)
    (hpat : (X ++ ['/']) ∈ E ∨ (X ++ gs "/**") ∈ E)
    (hd : (d == X || goPrefixed d (X ++ ['/'])) = true)
    (hf : goPrefixed f (d ++ ['/']) = true) :
    shouldSkipDirectory d E = true ∧ shouldIncludeFile f I E = false := by
  have hEne : E ≠ [] := by
    rcases hpat with h | h <;> exact List.ne_nil_of_mem h
  have hd' : d = X ∨ goPrefixed d (X ++ ['/']) = true := by
    have h := hd
    simp only [Bool.or_eq_true, beq_iff_eq] at h
    exact h
  have hfX : goPrefixed f (X ++ ['/']) = true := by
    rcases hd' with h | h
    · rw [h] at hf
      exact hf
    · have h1 : (X ++ ['/']) <+: d := goPrefixed_iff.mp h
      have h2 : (d ++ ['/']) <+: f := goPrefixed_iff.mp hf
      exact goPrefixed_iff.mpr (h1.trans ((List.prefix_append d ['/']).trans h2))
  constructor
  · rw [shouldSkipDirectory, if_neg hEne, List.any_eq_true]
    rcases hpat with hmem | hmem
    · refine ⟨X ++ ['/'], hmem, ?_⟩
      simp only [goSuffixed_append_self, goTrimEnd_append, Bool.true_and, hd,
        Bool.true_or, Bool.or_true]
    · refine ⟨X ++ gs "/**", hmem, ?_⟩
      simp only [goSuffixed_append_self, goTrimEnd_append, Bool.true_and, hd,
        Bool.true_or, Bool.or_true]
  · have hmp : matchesPatterns f E = true := by
      rw [matchesPatterns, if_neg hEne, List.any_eq_true]
      rcases hpat with hmem | hmem
      · exact ⟨X ++ ['/'], hmem, matchesPattern_dir_accept X f (by rw [hfX]; simp)⟩
      · refine ⟨X ++ gs "/**", hmem, ?_⟩
        rw [matchesPattern_recursive_eval X f hX hstar, hfX]
        simp
    rw [shouldIncludeFile, if_pos (by rw [hmp]; simp [hEne])]

/-- Counterexample to claim C9 as stated: the bare-name exclude pattern
`vendor` prunes the `vendor` directory during traversal, yet per-file
filtering with the same exclude list keeps `vendor/foo.go`: `matchesPattern`
has no bare-directory-name rule, so pruning removes files that per-file
include/exclude filtering would have kept. -/
theorem claim9_counterexample :
    shouldSkipDirectory (gs "vendor") [gs "vendor"] = true ∧
    goPrefixed (gs "vendor/foo.go") (gs "vendor" ++ ['/']) = true ∧
    shouldIncludeFile (gs "vendor/foo.go") [] [gs "vendor"] = true := by
  decide

/-- Witness for claim C9 at the exclude list `[vendor/]`, the pruned
directory `vendor/sub`, and a file beneath it. -/
theorem claim9_witness :
    shouldSkipDirectory (gs "vendor/sub") [gs "vendor" ++ ['/']] = true ∧
    shouldIncludeFile (gs "vendor/sub/a.go") [] [gs "vendor" ++ ['/']] = false :=
  claim9_pruning_consistent_for_dir_patterns [] [gs "vendor" ++ ['/']]
    (gs "vendor/sub") (gs "vendor/sub/a.go") (gs "vendor")
    (by decide) (by decide) (Or.inl (by simp)) (by decide) (by decide)
